import Mathlib

/-
  Verification of the BSBI inverted-index engine (bsbi.py, compression.py,
  search.py) against its natural-language specification.

  Conventions of the embedding:
  - Python byte strings are `List Nat` with every element < 256.
  - Python ints are `Nat` where the source only handles non-negative values
    (doc ids, gaps of ascending postings, byte values); term ids in the merge
    are `Int` because the source uses the sentinel value -1 there.
  - Fallible code (Python exceptions) returns `Option`.
  - "strictly ascending" is `List.Pairwise (· < ·)`.
-/

set_option maxHeartbeats 2000000
set_option maxRecDepth 8000

namespace BSBI

/-! ## Sorted-list set operations (util.py, modelled from the spec)

The repository's util.py is not part of the provided sources; only its
callers in bsbi.py are.  The three set operations are therefore modelled
from spec section 4.6: each takes two strictly ascending integer lists and
returns a strictly ascending list via a two-pointer sweep. -/

/-- Modelled from the spec: util.py's sort_intersect_list is missing from the
sources.  Spec 4.6: intersection of two strictly ascending lists, every value
present in both inputs, by a two-pointer sweep. -/
def sort_intersect_list : List Nat → List Nat → List Nat
  | [], _ => []
  | _ :: _, [] => []
  | x :: xs, y :: ys =>
    if x < y then sort_intersect_list xs (y :: ys)
    else if y < x then sort_intersect_list (x :: xs) ys
    else x :: sort_intersect_list xs ys

/-- Modelled from the spec: util.py's sort_union_list is missing from the
sources.  Spec 4.6: union of two strictly ascending lists, every value present
in either input, deduplicated, by a two-pointer sweep. -/
def sort_union_list : List Nat → List Nat → List Nat
  | [], ys => ys
  | x :: xs, [] => x :: xs
  | x :: xs, y :: ys =>
    if x < y then x :: sort_union_list xs (y :: ys)
    else if y < x then y :: sort_union_list (x :: xs) ys
    else x :: sort_union_list xs ys

/-- Modelled from the spec: util.py's sort_diff_list is missing from the
sources.  Spec 4.7 and the design notes fix the evaluator contract: the
operand popped first from the stack (which bsbi.py passes as the first
argument) is the right-hand side of DIFF, and the second-popped operand is
the minuend.  Hence the first argument is the subtrahend and the second the
minuend: the result is every value of `m` not present in `sub` (spec 4.6),
by a two-pointer sweep. -/
def sort_diff_list : List Nat → List Nat → List Nat
  | _, [] => []
  | [], m => m
  | s :: ss, m :: ms =>
    if m < s then m :: sort_diff_list (s :: ss) ms
    else if s < m then sort_diff_list ss (m :: ms)
    else sort_diff_list ss ms

/-! ## Gap transform shared by VBEPostings and Simple8bPostings

Both encoders first turn the postings list into a gap list (first posting,
then successive differences) and both decoders undo this with a running
prefix sum.  The sources subtract Python ints; on the strictly ascending
postings lists the codecs are specified for, truncated Nat subtraction
agrees with Python's subtraction. -/

def gapAux (prev : Nat) : List Nat → List Nat
  | [] => []
  | x :: xs => (x - prev) :: gapAux x xs

/-- gap_based_list built at the start of VBEPostings.encode and
Simple8bPostings.encode. -/
def gapList : List Nat → List Nat
  | [] => []
  | p :: rest => p :: gapAux p rest

/-- prefix-sum loop at the end of VBEPostings.decode and
Simple8bPostings.decode: postings_list starts as the first gap and every
further entry adds the next gap to the previous posting. -/
def prefixSums (first : Nat) : List Nat → List Nat
  | [] => [first]
  | g :: gs => first :: prefixSums (first + g) gs

namespace VBEPostings

/-- Loop of vb_encode_number before the final high-bit marking: the source
prepends number & 0x7F with insert(0, ...) and shifts by 7 until the value is
below 128, so the groups come out most-significant first. -/
def vbLoop (number : Nat) : List Nat :=
  if number < 128 then [number &&& 0x7F]
  else vbLoop (number >>> 7) ++ [number &&& 0x7F]
  termination_by number
  decreasing_by
    simp only [Nat.shiftRight_eq_div_pow]
    exact Nat.div_lt_self (by omega) (by norm_num)

/-- bytes[-1] |= 0x80 on the group list. -/
def modifyLast (f : Nat → Nat) : List Nat → List Nat
  | [] => []
  | [x] => [f x]
  | x :: y :: xs => x :: modifyLast f (y :: xs)

/-- VBEPostings.vb_encode_number: the 7-bit groups, most-significant first,
with the high bit (0x80) set on the last byte as terminator. -/
def vb_encode_number (number : Nat) : List Nat :=
  modifyLast (fun b => b ||| 0x80) (vbLoop number)

/-- VBEPostings.vb_encode: concatenation of the per-number encodings. -/
def vb_encode (list_of_numbers : List Nat) : List Nat :=
  (list_of_numbers.map vb_encode_number).flatten

/-- VBEPostings.encode: gap transform then vb_encode.  An empty postings
list raises IndexError at postings_list[0], hence `none`. -/
def encode (postings_list : List Nat) : Option (List Nat) :=
  match postings_list with
  | [] => none
  | _ :: _ => some (vb_encode (gapList postings_list))

/-- Accumulator loop of VBEPostings.vb_decode: bytes below 128 extend the
current integer, a byte with the high bit set terminates it and appends it. -/
def vbDecodeAux : List Nat → Nat → List Nat
  | [], _ => []
  | byte :: bs, n =>
    if byte < 128 then vbDecodeAux bs (128 * n + byte)
    else (128 * n + byte - 128) :: vbDecodeAux bs 0

/-- VBEPostings.vb_decode. -/
def vb_decode (encoded_bytestream : List Nat) : List Nat :=
  vbDecodeAux encoded_bytestream 0

/-- VBEPostings.decode: vb_decode, then the prefix sum; an empty decoded gap
list raises IndexError at gap_based_list[0], hence `none`. -/
def decode (encoded_postings_list : List Nat) : Option (List Nat) :=
  match vb_decode encoded_postings_list with
  | [] => none
  | g :: gs => some (prefixSums g gs)

end VBEPostings

namespace StandardPostings

/-
  StandardPostings stores postings with Python's array module, type code L
  (C unsigned long).  The Python language defines only a minimum item size of
  4 bytes for that code; the actual width is platform-defined (8 bytes on
  common 64-bit Linux, 4 on Windows).  The embedding is therefore
  parameterized by the item width w in bytes.  tobytes() emits each item in
  native byte order; mainstream platforms are little-endian.
-/

/-- One w-byte little-endian item of array.tobytes(). -/
def natToBytesLE : Nat → Nat → List Nat
  | 0, _ => []
  | w + 1, x => x % 256 :: natToBytesLE w (x / 256)

/-- StandardPostings.encode: array('L', postings_list).tobytes().  The array
constructor raises OverflowError iff some value does not fit the platform's
w-byte unsigned long. -/
def encode (w : Nat) (postings_list : List Nat) : Option (List Nat) :=
  if ∀ x ∈ postings_list, x < 2 ^ (8 * w) then
    some ((postings_list.map (natToBytesLE w)).flatten)
  else none

/-- Little-endian value of a byte list, as array.frombytes reads one item. -/
def bytesToNatLE : List Nat → Nat
  | [] => 0
  | b :: bs => b + 256 * bytesToNatLE bs

/-- Item loop of array.frombytes: read w bytes per item. -/
def decodeChunks (w : Nat) : List Nat → List Nat
  | [] => []
  | b :: bs => bytesToNatLE ((b :: bs).take w) :: decodeChunks w (bs.drop (w - 1))
  termination_by bs => bs.length
  decreasing_by
    simp only [List.length_drop, List.length_cons]
    omega

/-- StandardPostings.decode: array('L'); frombytes raises ValueError unless
the byte count is a multiple of the item size w. -/
def decode (w : Nat) (bs : List Nat) : Option (List Nat) :=
  if bs.length % w = 0 then some (decodeChunks w bs) else none

end StandardPostings

namespace Simple8bPostings

/-- SELECTOR_TABLE of Simple8bPostings: (bits_per_integer, integers_coded). -/
def SELECTOR_TABLE : List (Nat × Nat) :=
  [(0, 240), (0, 120), (1, 60), (2, 30), (3, 20), (4, 15), (5, 12), (6, 10),
   (7, 8), (8, 7), (10, 6), (12, 5), (15, 4), (20, 3), (30, 2), (60, 1)]

def tableBits (selector : Nat) : Nat := (SELECTOR_TABLE.getD selector (0, 0)).1

def tableCount (selector : Nat) : Nat := (SELECTOR_TABLE.getD selector (0, 0)).2

/-- Python max() over a list of non-negative ints (callers pass non-empty
slices). -/
def maxList (l : List Nat) : Nat := l.foldl Nat.max 0

/-- Simple8bPostings.find_selector: selector 0 or 1 for runs of 1s, else the
first selector in [2, 16) whose window exists and fits; `none` is the
ValueError raised when the first value needs more than 60 bits. -/
def find_selector (numbers : List Nat) : Option Nat :=
  if 240 ≤ numbers.length ∧ ∀ num ∈ numbers.take 240, num = 1 then some 0
  else if 120 ≤ numbers.length ∧ ∀ num ∈ numbers.take 120, num = 1 then some 1
  else (List.range' 2 14).find? fun selector =>
    decide (tableCount selector ≤ numbers.length ∧
      maxList (numbers.take (tableCount selector)) < 1 <<< tableBits selector)

/-- Word assembly in simple8b_encode: encoded starts as the selector and each
window value is OR-ed in at bit offset 4 + bits_per_integer * j. -/
def packWord (selector bits : Nat) (window : List Nat) : Nat :=
  window.enum.foldl (fun encoded jv => encoded ||| jv.2 <<< (4 + bits * jv.1)) selector

/-- (value).to_bytes(8, byteorder big).  Callers only pass values below 2^64
(proved below); Python would raise OverflowError otherwise. -/
def wordToBytesBE (w : Nat) : List Nat :=
  (List.range 8).map fun k => w / 2 ^ (8 * (7 - k)) % 256

/-- int.from_bytes(..., byteorder big). -/
def bytesToWordBE (bs : List Nat) : Nat :=
  bs.foldl (fun acc b => 256 * acc + b) 0

/-- Simple8bPostings.simple8b_encode: repeatedly pick a selector for the
remaining gaps, emit one big-endian 8-byte word, and advance by the number of
integers the selector covers; `none` is the propagated find_selector
ValueError. -/
def simple8b_encode (list_of_numbers : List Nat) : Option (List Nat) :=
  match list_of_numbers with
  | [] => some []
  | n :: rest =>
    match h : find_selector (n :: rest) with
    | none => none
    | some selector =>
      let body :=
        if selector = 0 then simple8b_encode ((n :: rest).drop 240)
        else if selector = 1 then simple8b_encode ((n :: rest).drop 120)
        else simple8b_encode ((n :: rest).drop (tableCount selector))
      body.map fun bs =>
        (if selector = 0 ∨ selector = 1 then wordToBytesBE selector
         else wordToBytesBE
           (packWord selector (tableBits selector)
             ((n :: rest).take (tableCount selector)))) ++ bs
  termination_by list_of_numbers.length
  decreasing_by
  · simp only [List.length_drop, List.length_cons]
    omega
  · simp only [List.length_drop, List.length_cons]
    omega
  · simp only [List.length_drop, List.length_cons]
    have hcount : 1 ≤ tableCount selector := by
      rw [find_selector] at h
      split at h
      · cases h
        decide
      · split at h
        · cases h
          decide
        · have hmem := List.mem_of_find?_eq_some h
          obtain ⟨i, hi, rfl⟩ := List.mem_range'.mp hmem
          interval_cases i <;> decide
    omega

/-- Simple8bPostings.encode: gap transform then simple8b_encode; an empty
postings list raises IndexError at postings_list[0]. -/
def encode (postings_list : List Nat) : Option (List Nat) :=
  match postings_list with
  | [] => none
  | _ :: _ => simple8b_encode (gapList postings_list)

/-- Simple8bPostings.simple8b_decode: process the stream 8 bytes at a time;
the low 4 bits of each word select either a run of 1s or a field layout. -/
def simple8b_decode (encoded_bytestream : List Nat) : List Nat :=
  match encoded_bytestream with
  | [] => []
  | b :: bs =>
    let block := bytesToWordBE ((b :: bs).take 8)
    let selector := block &&& 0xF
    (if selector = 0 then List.replicate 240 1
     else if selector = 1 then List.replicate 120 1
     else (List.range (tableCount selector)).map fun j =>
       block >>> (4 + tableBits selector * j) &&& ((1 <<< tableBits selector) - 1))
      ++ simple8b_decode (bs.drop 7)
  termination_by encoded_bytestream.length
  decreasing_by
    simp only [List.length_drop, List.length_cons]
    omega

/-- Simple8bPostings.decode: simple8b_decode, then the prefix sum; an empty
decoded gap list raises IndexError at gap_based_list[0]. -/
def decode (encoded_postings_list : List Nat) : Option (List Nat) :=
  match simple8b_decode encoded_postings_list with
  | [] => none
  | g :: gs => some (prefixSums g gs)

/-- Proof device (not from the source): the value of a field list packed at
a fixed width, least-significant field first.  packWord is related to it
below. -/
def hornerB (bits : Nat) : List Nat → Nat
  | [] => 0
  | x :: xs => x + 2 ^ bits * hornerB bits xs

end Simple8bPostings

/-! ## Boolean query evaluator (bsbi.py BSBIIndex.boolean_retrieve)

The evaluator works on the postfix token sequence produced by QueryParser
(util.py, not part of the provided sources).  Tokens are either operand terms
or the special tokens AND, OR, DIFF; parentheses are gone after
infix_to_postfix.  The term environment models term_id_map together with the
per-operand index read: `env s = some ps` when the stemmed term s is in
term_id_map with postings ps, `none` when it is absent. -/

inductive QTok where
  | term (s : String)
  | opAnd
  | opOr
  | opDiff
deriving DecidableEq

/-- Stack evaluation loop of boolean_retrieve over the postfix tokens.  The
Lean list head is the top of stack (Python append/pop act on the end of the
list).  An operand resolves to its postings, or to [] when the term is absent
from term_id_map (term_id -1) or the index read raises; an operator pops
twice and pushes, the first pop being passed as the first argument exactly as
in the source.  Popping an empty stack is a Python IndexError, hence
`none`. -/
def evalQuery (env : String → Option (List Nat)) :
    List QTok → List (List Nat) → Option (List (List Nat))
  | [], stack => some stack
  | QTok.term s :: ts, stack => evalQuery env ts ((env s).getD [] :: stack)
  | QTok.opAnd :: ts, b :: a :: stack =>
      evalQuery env ts (sort_intersect_list b a :: stack)
  | QTok.opOr :: ts, b :: a :: stack =>
      evalQuery env ts (sort_union_list b a :: stack)
  | QTok.opDiff :: ts, b :: a :: stack =>
      evalQuery env ts (sort_diff_list b a :: stack)
  | _ :: _, _ => none

/-- Final step of boolean_retrieve: pop the remaining result if the stack is
non-empty, otherwise return [].  The source then maps each doc id through
doc_id_map to a path; the embedding stays at the doc id level. -/
def boolean_retrieve (env : String → Option (List Nat))
    (pf_query : List QTok) : Option (List Nat) :=
  match evalQuery env pf_query [] with
  | none => none
  | some [] => some []
  | some (top :: _) => some top

/-! ## External k-way merge (bsbi.py BSBIIndex.merge_index) -/

/-- A record yielded by an intermediate index reader: (term_id, postings
list).  Term ids are Int because merge_index uses the sentinel value -1 for
current_term_id. -/
abbrev IRec : Type := Int × List Nat

/-- A heap entry (term_id, reader index, postings list) as pushed by
merge_index. -/
abbrev HEntry : Type := Int × Nat × List Nat

/-- Ordering heapq applies to the (term_id, i, postings_list) tuples:
lexicographic, and the list component is never reached because the live
reader indices are distinct. -/
def lexLe (a b : HEntry) : Prop :=
  a.1 < b.1 ∨ (a.1 = b.1 ∧ a.2.1 ≤ b.2.1)

instance instDecRelLexLe : DecidableRel lexLe := fun a b =>
  decidable_of_iff (a.1 < b.1 ∨ (a.1 = b.1 ∧ a.2.1 ≤ b.2.1)) Iff.rfl

instance instIsTotalLexLe : IsTotal HEntry lexLe := ⟨by
  intro a b
  unfold lexLe
  rcases lt_trichotomy a.1 b.1 with h | h | h
  · exact Or.inl (Or.inl h)
  · rcases Nat.le_total a.2.1 b.2.1 with h2 | h2
    · exact Or.inl (Or.inr ⟨h, h2⟩)
    · exact Or.inr (Or.inr ⟨h.symm, h2⟩)
  · exact Or.inr (Or.inl h)⟩

instance instIsTransLexLe : IsTrans HEntry lexLe := ⟨by
  intro a b c hab hbc
  unfold lexLe at *
  rcases hab with h | ⟨h1, h2⟩ <;> rcases hbc with h' | ⟨h1', h2'⟩
  · exact Or.inl (h.trans h')
  · exact Or.inl (h1' ▸ h)
  · exact Or.inl (h1 ▸ h')
  · exact Or.inr ⟨h1.trans h1', h2.trans h2'⟩⟩

/-- heapq.heappush on the extensional heap: the heap is modelled as a list
kept sorted by lexLe.  With all live keys distinct (distinct reader
indices), every priority-queue implementation pops the same unique minimum,
so the sorted-list model is observationally heapq. -/
def pushEntry (h : List HEntry) (e : HEntry) : List HEntry :=
  h.orderedInsert lexLe e

/-- Merge loop of merge_index.  State: rem holds each reader's records
behind its current front, heap holds the fronts of the non-exhausted
readers (pop = head of the sorted list = heapq.heappop), cur and acc are
current_term_id (initially -1) and current_postings_list (initially []).
Returns the records the loop appends to merged_index from this state on,
including the final flush after the heap empties. -/
def mergeLoop (rem : List (List IRec)) (heap : List HEntry) (cur : Int)
    (acc : List Nat) : List IRec :=
  match heap with
  | [] => if acc = [] then [] else [(cur, acc)]
  | (t, i, p) :: heap1 =>
    let emitted : List IRec := if cur ≠ -1 ∧ t ≠ cur then [(cur, acc)] else []
    let acc0 := if cur ≠ -1 ∧ t ≠ cur then [] else acc
    let acc1 := if acc0 = [] then p else sort_union_list acc0 p
    match hrem : rem.getD i [] with
    | [] => emitted ++ mergeLoop rem heap1 t acc1
    | r :: rs =>
      emitted ++ mergeLoop (rem.set i rs) (pushEntry heap1 (r.1, i, r.2)) t acc1
  termination_by (rem.map List.length).sum + heap.length
  decreasing_by
  · simp only [List.length_cons]
    omega
  · have hkey : ∀ (l : List (List IRec)) (j : Nat) (r : IRec) (rs : List IRec),
        l.getD j [] = r :: rs →
        ((l.set j rs).map List.length).sum + 1 ≤ (l.map List.length).sum := by
      intro l
      induction l with
      | nil => intro j r rs hj; simp at hj
      | cons x l ih =>
        intro j r rs hj
        cases j with
        | zero =>
          simp only [List.getD_cons_zero] at hj
          subst hj
          simp only [List.set_cons_zero, List.map_cons, List.sum_cons,
            List.length_cons]
          omega
        | succ j =>
          have := ih j r rs (by simpa using hj)
          simp only [List.set_cons_succ, List.map_cons, List.sum_cons]
          omega
    have h1 := hkey rem i r rs hrem
    have h2 : (pushEntry heap1 (r.1, i, r.2)).length = heap1.length + 1 :=
      List.orderedInsert_length lexLe heap1 _
    simp only [List.length_cons]
    omega

/-- Heap initialization loop of merge_index: enumerate the readers in order,
push each non-exhausted reader's first record, skip empty readers
(StopIteration). -/
def initHeapAux : Nat → List (List IRec) → List HEntry → List HEntry
  | _, [], h => h
  | i, [] :: readers, h => initHeapAux (i + 1) readers h
  | i, (r :: _) :: readers, h =>
      initHeapAux (i + 1) readers (pushEntry h (r.1, i, r.2))

/-- BSBIIndex.merge_index: k-way merge of the intermediate reader streams by
a min-heap keyed on (term_id, reader index), emitting each finished term's
accumulated postings to merged_index (returned as a list). -/
def merge_index (indices : List (List IRec)) : List IRec :=
  mergeLoop (indices.map fun reader => reader.drop 1) (initHeapAux 0 indices [])
    (-1) []

/-- Proof device (not from the source): x is a posting of term t in some
still-unconsumed record of the merge state (a heap front or a record behind
one). -/
def FutureP (rem : List (List IRec)) (heap : List HEntry) (t : Int)
    (x : Nat) : Prop :=
  (∃ e ∈ heap, e.1 = t ∧ x ∈ e.2.2) ∨
  (∃ j, j < rem.length ∧ ∃ r ∈ rem.getD j [], r.1 = t ∧ x ∈ r.2)

/-- Proof device (not from the source): term t occurs in some still-unconsumed
record of the merge state. -/
def FutureT (rem : List (List IRec)) (heap : List HEntry) (t : Int) : Prop :=
  (∃ e ∈ heap, e.1 = t) ∨
  (∃ j, j < rem.length ∧ ∃ r ∈ rem.getD j [], r.1 = t)

/-! ## Helper theorems -/

theorem mem_sort_union (xs ys : List Nat) (a : Nat) :
    a ∈ sort_union_list xs ys ↔ a ∈ xs ∨ a ∈ ys := by
  induction xs, ys using sort_union_list.induct with
  | case1 ys => simp [sort_union_list]
  | case2 x xs => simp [sort_union_list]
  | case3 x xs y ys h ih =>
    rw [sort_union_list, if_pos h]
    simp only [List.mem_cons, ih]
    tauto
  | case4 x xs y ys h1 h2 ih =>
    rw [sort_union_list, if_neg h1, if_pos h2]
    simp only [List.mem_cons, ih]
    tauto
  | case5 x xs y ys h1 h2 ih =>
    rw [sort_union_list, if_neg h1, if_neg h2]
    have hxy : x = y := by omega
    subst hxy
    simp only [List.mem_cons, ih]
    tauto

theorem sort_union_ne_nil {xs ys : List Nat} (h : xs ≠ [] ∨ ys ≠ []) :
    sort_union_list xs ys ≠ [] := by
  match xs, ys with
  | [], [] => tauto
  | [], y :: ys => simp [sort_union_list]
  | x :: xs, [] => simp [sort_union_list]
  | x :: xs, y :: ys =>
    rw [sort_union_list]
    split <;> try simp
    split <;> simp

theorem pairwise_sort_union (xs ys : List Nat)
    (hx : List.Pairwise (· < ·) xs) (hy : List.Pairwise (· < ·) ys) :
    List.Pairwise (· < ·) (sort_union_list xs ys) := by
  induction xs, ys using sort_union_list.induct with
  | case1 ys => simpa [sort_union_list] using hy
  | case2 x xs => simpa [sort_union_list] using hx
  | case3 x xs y ys h ih =>
    rw [List.pairwise_cons] at hx
    rw [sort_union_list, if_pos h, List.pairwise_cons]
    refine ⟨fun b hb => ?_, ih hx.2 hy⟩
    rcases (mem_sort_union xs (y :: ys) b).mp hb with hb | hb
    · exact hx.1 b hb
    · rcases List.mem_cons.mp hb with rfl | hb
      · exact h
      · exact h.trans ((List.pairwise_cons.mp hy).1 b hb)
  | case4 x xs y ys h1 h2 ih =>
    rw [List.pairwise_cons] at hy
    rw [sort_union_list, if_neg h1, if_pos h2, List.pairwise_cons]
    refine ⟨fun b hb => ?_, ih hx hy.2⟩
    rcases (mem_sort_union (x :: xs) ys b).mp hb with hb | hb
    · rcases List.mem_cons.mp hb with rfl | hb
      · exact h2
      · exact h2.trans ((List.pairwise_cons.mp hx).1 b hb)
    · exact hy.1 b hb
  | case5 x xs y ys h1 h2 ih =>
    have hxy : x = y := by omega
    subst hxy
    rw [List.pairwise_cons] at hx hy
    rw [sort_union_list, if_neg h1, if_neg h2, List.pairwise_cons]
    refine ⟨fun b hb => ?_, ih hx.2 hy.2⟩
    rcases (mem_sort_union xs ys b).mp hb with hb | hb
    · exact hx.1 b hb
    · exact hy.1 b hb

theorem mem_sort_diff (ss ms : List Nat) (a : Nat)
    (hs : List.Pairwise (· < ·) ss) (hm : List.Pairwise (· < ·) ms) :
    a ∈ sort_diff_list ss ms ↔ a ∈ ms ∧ a ∉ ss := by
  induction ss, ms using sort_diff_list.induct with
  | case1 ss => cases ss <;> simp [sort_diff_list]
  | case2 m ms => simp [sort_diff_list]
  | case3 s ss m ms h ih =>
    rw [List.pairwise_cons] at hm
    rw [sort_diff_list, if_pos h]
    simp only [List.mem_cons, ih hs hm.2]
    constructor
    · rintro (rfl | ⟨ha, hns⟩)
      · refine ⟨Or.inl rfl, ?_⟩
        rw [List.pairwise_cons] at hs
        rintro (rfl | hmem)
        · omega
        · exact absurd (h.trans (hs.1 a hmem)) (lt_irrefl a)
      · exact ⟨Or.inr ha, hns⟩
    · rintro ⟨rfl | ha, hns⟩
      · exact Or.inl rfl
      · exact Or.inr ⟨ha, hns⟩
  | case4 s ss m ms h1 h2 ih =>
    rw [List.pairwise_cons] at hs hm
    rw [sort_diff_list, if_neg h1, if_pos h2]
    rw [ih hs.2 (List.pairwise_cons.mpr hm)]
    simp only [List.mem_cons]
    constructor
    · rintro ⟨ha, hns⟩
      refine ⟨ha, ?_⟩
      rintro (rfl | hmem)
      · rcases ha with rfl | hmem2
        · omega
        · exact absurd (h2.trans (hm.1 a hmem2)) (lt_irrefl a)
      · exact hns hmem
    · rintro ⟨ha, hns⟩
      exact ⟨ha, fun hmem => hns (Or.inr hmem)⟩
  | case5 s ss m ms h1 h2 ih =>
    have hsm : s = m := by omega
    subst hsm
    rw [List.pairwise_cons] at hs hm
    rw [sort_diff_list, if_neg h1, if_neg h2]
    rw [ih hs.2 hm.2]
    simp only [List.mem_cons]
    constructor
    · rintro ⟨ha, hns⟩
      refine ⟨Or.inr ha, ?_⟩
      rintro (rfl | hmem)
      · exact absurd (hm.1 a ha) (lt_irrefl a)
      · exact hns hmem
    · rintro ⟨rfl | ha, hns⟩
      · exact absurd (Or.inl rfl) hns
      · exact ⟨ha, fun hmem => hns (Or.inr hmem)⟩

theorem pairwise_sort_diff (ss ms : List Nat)
    (hs : List.Pairwise (· < ·) ss) (hm : List.Pairwise (· < ·) ms) :
    List.Pairwise (· < ·) (sort_diff_list ss ms) := by
  induction ss, ms using sort_diff_list.induct with
  | case1 ss => cases ss <;> simp [sort_diff_list]
  | case2 m ms => simpa [sort_diff_list] using hm
  | case3 s ss m ms h ih =>
    rw [List.pairwise_cons] at hm
    rw [sort_diff_list, if_pos h, List.pairwise_cons]
    refine ⟨fun b hb => ?_, ih hs hm.2⟩
    exact hm.1 b ((mem_sort_diff (s :: ss) ms b hs hm.2).mp hb).1
  | case4 s ss m ms h1 h2 ih =>
    rw [sort_diff_list, if_neg h1, if_pos h2]
    exact ih (List.pairwise_cons.mp hs).2 hm
  | case5 s ss m ms h1 h2 ih =>
    rw [sort_diff_list, if_neg h1, if_neg h2]
    exact ih (List.pairwise_cons.mp hs).2 (List.pairwise_cons.mp hm).2

theorem prefixSums_gapAux (rest : List Nat) : ∀ prev : Nat,
    List.Chain (· < ·) prev rest →
    prefixSums prev (gapAux prev rest) = prev :: rest := by
  induction rest with
  | nil => intro prev _; rfl
  | cons x xs ih =>
    intro prev hch
    rcases List.chain_cons.mp hch with ⟨h1, h2⟩
    show prev :: prefixSums (prev + (x - prev)) (gapAux x xs) = prev :: x :: xs
    rw [Nat.add_sub_of_le (le_of_lt h1), ih x h2]

theorem gapAux_lt (rest : List Nat) : ∀ (prev B : Nat), (∀ x ∈ rest, x < B) →
    ∀ g ∈ gapAux prev rest, g < B := by
  induction rest with
  | nil => intro prev B _ g hg; simp [gapAux] at hg
  | cons x xs ih =>
    intro prev B hB g hg
    rw [gapAux] at hg
    rcases List.mem_cons.mp hg with rfl | hg
    · have := hB x (by simp)
      omega
    · exact ih x B (fun y hy => hB y (by simp [hy])) g hg


theorem lor_mul_two_pow_eq_add {a k b : Nat} (h : a < 2 ^ k) :
    a ||| 2 ^ k * b = a + 2 ^ k * b := by
  apply Nat.eq_of_testBit_eq
  intro i
  have hsum : a + 2 ^ k * b = 2 ^ k * b + a := by omega
  rw [Nat.testBit_lor, hsum, Nat.testBit_mul_pow_two_add b h i]
  by_cases hik : i < k
  · have : (2 ^ k * b).testBit i = false := by
      have : 2 ^ k * b = b <<< k := by rw [Nat.shiftLeft_eq]; ring
      rw [this, Nat.testBit_shiftLeft]
      simp [Nat.not_le.mpr hik]
    simp [this, hik]
  · have ha : a.testBit i = false :=
      Nat.testBit_lt_two_pow (lt_of_lt_of_le h (Nat.pow_le_pow_right (by norm_num) (by omega)))
    have : (2 ^ k * b).testBit i = b.testBit (i - k) := by
      have h2 : 2 ^ k * b = b <<< k := by rw [Nat.shiftLeft_eq]; ring
      rw [h2, Nat.testBit_shiftLeft]
      simp [Nat.le_of_not_lt (by omega : ¬ i < k)]
    simp [this, ha, hik]

theorem and_127_eq_mod (n : Nat) : n &&& 0x7F = n % 128 := by
  have : (0x7F : Nat) = 2 ^ 7 - 1 := by norm_num
  rw [this, Nat.and_pow_two_sub_one_eq_mod]

theorem lor_128_eq_add {n : Nat} (h : n < 128) : n ||| 0x80 = n + 128 := by
  have h1 : (0x80 : Nat) = 2 ^ 7 * 1 := by norm_num
  rw [h1, lor_mul_two_pow_eq_add (by norm_num; omega)]

namespace VBEPostings

theorem vbLoop_ne_nil (n : Nat) : vbLoop n ≠ [] := by
  rw [vbLoop]
  split <;> simp

theorem vbLoop_lt (n : Nat) : ∀ b ∈ vbLoop n, b < 128 := by
  induction n using vbLoop.induct with
  | case1 n h =>
    rw [vbLoop, if_pos h]
    intro b hb
    rw [List.mem_singleton.mp hb, and_127_eq_mod]
    omega
  | case2 n h ih =>
    rw [vbLoop, if_neg h]
    intro b hb
    rcases List.mem_append.mp hb with hb | hb
    · exact ih b hb
    · rw [List.mem_singleton.mp hb, and_127_eq_mod]
      omega

theorem modifyLast_append_single (f : Nat → Nat) (xs : List Nat) (x : Nat) :
    modifyLast f (xs ++ [x]) = xs ++ [f x] := by
  induction xs with
  | nil => rfl
  | cons y ys ih =>
    cases ys with
    | nil => rfl
    | cons z zs =>
      show y :: modifyLast f ((z :: zs) ++ [x]) = y :: ((z :: zs) ++ [f x])
      rw [ih]

theorem vbDecodeAux_low (tl : List Nat) (hlow : ∀ b ∈ tl, b < 128) :
    ∀ a : Nat, vbDecodeAux tl a = [] := by
  induction tl with
  | nil => intro a; rfl
  | cons b bs ih =>
    intro a
    rw [vbDecodeAux, if_pos (hlow b (by simp))]
    exact ih (fun x hx => hlow x (by simp [hx])) _

theorem vbDecodeAux_vbLoop (n : Nat) : ∀ (a : Nat) (rest : List Nat),
    vbDecodeAux (vbLoop n ++ rest) a =
      vbDecodeAux rest (a * 128 ^ (vbLoop n).length + n) := by
  induction n using vbLoop.induct with
  | case1 n h =>
    intro a rest
    rw [vbLoop, if_pos h, and_127_eq_mod, Nat.mod_eq_of_lt h]
    show vbDecodeAux (n :: rest) a = _
    rw [vbDecodeAux, if_pos h]
    congr 1
    simp only [List.length_singleton, pow_one]
    ring
  | case2 n h ih =>
    intro a rest
    rw [vbLoop, if_neg h, List.append_assoc]
    rw [ih a _]
    have hb : n &&& 0x7F < 128 := by rw [and_127_eq_mod]; omega
    show vbDecodeAux ((n &&& 0x7F) :: rest) _ = _
    rw [vbDecodeAux, if_pos hb]
    congr 1
    have hq : n >>> 7 = n / 128 := by
      rw [Nat.shiftRight_eq_div_pow]
    rw [and_127_eq_mod, hq]
    simp only [List.length_append, List.length_singleton]
    have hdm : 128 * (n / 128) + n % 128 = n := by omega
    set L := (vbLoop (n / 128)).length
    have e1 : 128 * (a * 128 ^ L + n / 128) + n % 128
        = a * (128 ^ L * 128) + (128 * (n / 128) + n % 128) := by ring
    rw [e1, hdm, ← pow_succ]

theorem vbDecodeAux_encNum (n a : Nat) (rest : List Nat) :
    vbDecodeAux (vb_encode_number n ++ rest) a =
      (a * 128 ^ (vbLoop n).length + n) :: vbDecodeAux rest 0 := by
  by_cases h : n < 128
  · have henc : vb_encode_number n = [n ||| 0x80] := by
      rw [vb_encode_number, vbLoop, if_pos h, and_127_eq_mod, Nat.mod_eq_of_lt h]
      rfl
    rw [henc, lor_128_eq_add h]
    show vbDecodeAux ((n + 128) :: rest) a = _
    rw [vbDecodeAux, if_neg (by omega)]
    congr 2
    rw [vbLoop, if_pos h]
    simp only [List.length_singleton, pow_one]
    have : a * 128 = 128 * a := by ring
    omega
  · have hr : n &&& 0x7F < 128 := by rw [and_127_eq_mod]; omega
    have henc : vb_encode_number n
        = vbLoop (n >>> 7) ++ [(n &&& 0x7F) + 128] := by
      rw [vb_encode_number, vbLoop, if_neg h,
        modifyLast_append_single, lor_128_eq_add hr]
    rw [henc, List.append_assoc, vbDecodeAux_vbLoop]
    show vbDecodeAux (((n &&& 0x7F) + 128) :: rest) _ = _
    rw [vbDecodeAux, if_neg (by omega)]
    congr 2
    have hq : n >>> 7 = n / 128 := by
      rw [Nat.shiftRight_eq_div_pow]
    have hlen : (vbLoop n).length = (vbLoop (n / 128)).length + 1 := by
      rw [vbLoop, if_neg h, hq]
      simp
    rw [and_127_eq_mod, hq, hlen]
    have hdm : 128 * (n / 128) + n % 128 = n := by omega
    set L := (vbLoop (n / 128)).length
    have e1 : 128 * (a * 128 ^ L + n / 128) + n % 128
        = a * (128 ^ L * 128) + (128 * (n / 128) + n % 128) := by ring
    have e2 : a * (128 ^ L * 128) = a * 128 ^ (L + 1) := by
      rw [← pow_succ]
    omega

theorem vb_decode_vb_encode (gs : List Nat) : vb_decode (vb_encode gs) = gs := by
  rw [vb_decode]
  induction gs with
  | nil => rfl
  | cons g gs ih =>
    rw [vb_encode, List.map_cons, List.flatten_cons, vbDecodeAux_encNum]
    rw [vb_encode] at ih
    rw [ih]
    simp

theorem vbe_round_trip (xs : List Nat) (hne : xs ≠ [])
    (hasc : List.Pairwise (· < ·) xs) :
    (encode xs).bind decode = some xs := by
  match xs with
  | p :: rest =>
    rw [encode]
    show decode (vb_encode (gapList (p :: rest))) = some (p :: rest)
    unfold decode
    rw [vb_decode_vb_encode, gapList]
    exact congrArg some (prefixSums_gapAux rest p (List.chain_iff_pairwise.mpr hasc))

end VBEPostings

namespace StandardPostings

theorem natToBytesLE_length : ∀ (w x : Nat), (natToBytesLE w x).length = w := by
  intro w
  induction w with
  | zero => intro x; rfl
  | succ w ih =>
    intro x
    show (x % 256 :: natToBytesLE w (x / 256)).length = w + 1
    rw [List.length_cons, ih]

theorem bytesToNatLE_natToBytesLE : ∀ (w x : Nat), x < 2 ^ (8 * w) →
    bytesToNatLE (natToBytesLE w x) = x := by
  intro w
  induction w with
  | zero =>
    intro x hx
    interval_cases x
    rfl
  | succ w ih =>
    intro x hx
    show x % 256 + 256 * bytesToNatLE (natToBytesLE w (x / 256)) = x
    rw [ih (x / 256) (by
      have h2 : 2 ^ (8 * (w + 1)) = 2 ^ (8 * w) * 256 := by
        rw [show 8 * (w + 1) = 8 * w + 8 by ring, pow_add]
        norm_num
      rw [h2] at hx
      omega)]
    omega

theorem decodeChunks_cons (w : Nat) (hw : 1 ≤ w) (l rest : List Nat)
    (hl : l.length = w) :
    decodeChunks w (l ++ rest) = bytesToNatLE l :: decodeChunks w rest := by
  match l with
  | [] => rw [List.length_nil] at hl; omega
  | b :: bs =>
    rw [show (b :: bs ++ rest) = b :: (bs ++ rest) from rfl, decodeChunks]
    have hbs : bs.length = w - 1 := by
      rw [List.length_cons] at hl
      omega
    congr 2
    · rw [show w = bs.length + 1 by omega]
      rw [List.take_succ_cons, List.take_left]
    · rw [List.drop_left' hbs]

theorem decodeChunks_flatten (w : Nat) (hw : 1 ≤ w) : ∀ xs : List Nat,
    (∀ x ∈ xs, x < 2 ^ (8 * w)) →
    decodeChunks w ((xs.map (natToBytesLE w)).flatten) = xs := by
  intro xs
  induction xs with
  | nil => intro _; simp [decodeChunks]
  | cons x xs ih =>
    intro hx
    rw [List.map_cons, List.flatten_cons,
      decodeChunks_cons w hw _ _ (natToBytesLE_length w x),
      bytesToNatLE_natToBytesLE w x (hx x (by simp)),
      ih (fun y hy => hx y (by simp [hy]))]

theorem encode_length_flatten (w : Nat) : ∀ xs : List Nat,
    ((xs.map (natToBytesLE w)).flatten).length = w * xs.length := by
  intro xs
  induction xs with
  | nil => simp
  | cons x xs ih =>
    rw [List.map_cons, List.flatten_cons, List.length_append, ih,
      natToBytesLE_length, List.length_cons]
    ring

theorem std_round_trip (w : Nat) (hw : 1 ≤ w) (xs : List Nat)
    (hx : ∀ x ∈ xs, x < 2 ^ (8 * w)) :
    (encode w xs).bind (decode w) = some xs := by
  rw [encode, if_pos hx]
  show decode w ((xs.map (natToBytesLE w)).flatten) = some xs
  rw [decode, if_pos (by rw [encode_length_flatten w xs, Nat.mul_mod_right]),
    decodeChunks_flatten w hw xs hx]

end StandardPostings

namespace Simple8bPostings

theorem tableCount_pos (s : Nat) (h : s < 16) : 1 ≤ tableCount s := by
  interval_cases s <;> decide

theorem tableBits_le (s : Nat) (h : s < 16) : tableBits s ≤ 60 := by
  interval_cases s <;> decide

theorem tableBits_pos (s : Nat) (h2 : 2 ≤ s) (h : s < 16) : 1 ≤ tableBits s := by
  interval_cases s <;> decide

theorem tableLayout (s : Nat) (h2 : 2 ≤ s) (h : s < 16) :
    4 + tableBits s * tableCount s ≤ 64 := by
  interval_cases s <;> decide

theorem foldl_max_lt (l : List Nat) : ∀ (a B : Nat),
    (l.foldl Nat.max a < B ↔ a < B ∧ ∀ x ∈ l, x < B) := by
  induction l with
  | nil => intro a B; simp
  | cons x xs ih =>
    intro a B
    show xs.foldl Nat.max (Nat.max a x) < B ↔ _
    rw [ih]
    simp only [Nat.max_lt, List.mem_cons]
    constructor
    · rintro ⟨⟨ha, hx⟩, hall⟩
      exact ⟨ha, fun y hy => by
        rcases hy with rfl | hy
        · exact hx
        · exact hall y hy⟩
    · rintro ⟨ha, hall⟩
      exact ⟨⟨ha, hall x (Or.inl rfl)⟩, fun y hy => hall y (Or.inr hy)⟩

theorem maxList_lt_iff (l : List Nat) (B : Nat) (hB : 0 < B) :
    maxList l < B ↔ ∀ x ∈ l, x < B := by
  rw [maxList, foldl_max_lt]
  exact ⟨fun h => h.2, fun h => ⟨hB, h⟩⟩

theorem find?_range'_min (p : Nat → Bool) : ∀ (n a s : Nat),
    (List.range' a n).find? p = some s → ∀ t, a ≤ t → t < s → p t = false := by
  intro n
  induction n with
  | zero => intro a s h; simp at h
  | succ n ih =>
    intro a s h t hat hts
    rw [List.range'_succ, List.find?_cons] at h
    split at h
    · rename_i hpa
      cases h
      omega
    · rename_i hpa
      rcases Nat.eq_or_lt_of_le hat with rfl | hlt
      · simpa using hpa
      · exact ih (a + 1) s h t hlt hts

theorem find?_range'_first (p : Nat → Bool) : ∀ (n a s : Nat),
    a ≤ s → s < a + n → p s = true → (∀ t, a ≤ t → t < s → p t = false) →
    (List.range' a n).find? p = some s := by
  intro n
  induction n with
  | zero => intro a s h1 h2; omega
  | succ n ih =>
    intro a s h1 h2 hp hmin
    rw [List.range'_succ]
    rcases Nat.eq_or_lt_of_le h1 with rfl | hlt
    · exact List.find?_cons_of_pos _ hp
    · rw [List.find?_cons_of_neg _ (by rw [hmin a le_rfl hlt]; simp)]
      exact ih (a + 1) s hlt (by omega) hp fun t h1t h2t => hmin t (by omega) h2t

theorem find_selector_eq_zero_iff (ns : List Nat) :
    find_selector ns = some 0 ↔
      240 ≤ ns.length ∧ ∀ g ∈ ns.take 240, g = 1 := by
  rw [find_selector]
  split_ifs with h0 h1
  · exact iff_of_true rfl h0
  · simp only [Option.some.injEq]
    constructor
    · intro h; omega
    · intro h; exact absurd h h0
  · constructor
    · intro h
      have := List.mem_range'.mp (List.mem_of_find?_eq_some h)
      omega
    · intro h; exact absurd h h0

theorem find_selector_eq_one_iff (ns : List Nat) :
    find_selector ns = some 1 ↔
      ¬(240 ≤ ns.length ∧ ∀ g ∈ ns.take 240, g = 1) ∧
      120 ≤ ns.length ∧ ∀ g ∈ ns.take 120, g = 1 := by
  rw [find_selector]
  split_ifs with h0 h1
  · simp only [Option.some.injEq]
    constructor
    · intro h; omega
    · rintro ⟨h, _⟩; exact absurd h0 h
  · exact iff_of_true rfl ⟨h0, h1⟩
  · constructor
    · intro h
      have := List.mem_range'.mp (List.mem_of_find?_eq_some h)
      omega
    · rintro ⟨_, h⟩; exact absurd h h1

theorem find_selector_ge_two (ns : List Nat) (s : Nat)
    (h : find_selector ns = some s) (h2 : 2 ≤ s) :
    s < 16 ∧
    (tableCount s ≤ ns.length ∧
      maxList (ns.take (tableCount s)) < 1 <<< tableBits s) ∧
    ∀ t, 2 ≤ t → t < s →
      ¬(tableCount t ≤ ns.length ∧
        maxList (ns.take (tableCount t)) < 1 <<< tableBits t) := by
  rw [find_selector] at h
  split_ifs at h with h0 h1
  · cases h; omega
  · cases h; omega
  · have hmem := List.mem_range'.mp (List.mem_of_find?_eq_some h)
    have hfit := List.find?_some h
    rw [decide_eq_true_eq] at hfit
    refine ⟨by omega, hfit, fun t ht2 hts hfitt => ?_⟩
    have hmin := find?_range'_min _ 14 2 s h t ht2 hts
    rw [decide_eq_false_iff_not] at hmin
    exact hmin hfitt

theorem find_selector_isSome (n : Nat) (rest : List Nat) (hn : n < 2 ^ 60) :
    ∃ s, find_selector (n :: rest) = some s ∧ s < 16 := by
  rw [find_selector]
  split_ifs with h0 h1
  · exact ⟨0, rfl, by omega⟩
  · exact ⟨1, rfl, by omega⟩
  · cases hfind : (List.range' 2 14).find? fun selector =>
        decide (tableCount selector ≤ (n :: rest).length ∧
          maxList ((n :: rest).take (tableCount selector)) < 1 <<< tableBits selector) with
    | none =>
      exfalso
      rw [List.find?_eq_none] at hfind
      refine hfind 15 (by rw [List.mem_range']; exact ⟨13, by omega, by omega⟩) ?_
      rw [decide_eq_true_eq]
      constructor
      · show tableCount 15 ≤ (n :: rest).length
        rw [show tableCount 15 = 1 by decide, List.length_cons]
        omega
      · show maxList ((n :: rest).take (tableCount 15)) < 1 <<< tableBits 15
        have h15c : tableCount 15 = 1 := by decide
        have h15b : tableBits 15 = 60 := by decide
        rw [h15c, h15b]
        show Nat.max 0 n < 1 <<< 60
        rw [Nat.shiftLeft_eq, one_mul]
        exact Nat.max_lt.mpr ⟨by norm_num, hn⟩
    | some s =>
      have := List.mem_range'.mp (List.mem_of_find?_eq_some hfind)
      exact ⟨s, rfl, by omega⟩

theorem find_selector_none_iff (n : Nat) (rest : List Nat) :
    find_selector (n :: rest) = none ↔ 2 ^ 60 ≤ n := by
  constructor
  · intro h
    by_contra hn
    obtain ⟨s, hs, _⟩ := find_selector_isSome n rest (by omega)
    rw [h] at hs
    cases hs
  · intro hn
    rw [find_selector]
    have hbig : (1 : Nat) < n := by
      have : (1 : Nat) < 2 ^ 60 := by norm_num
      omega
    rw [if_neg (by
      rintro ⟨hl, hall⟩
      have : n ∈ (n :: rest).take 240 := by
        rw [show (240 : Nat) = 239 + 1 from rfl, List.take_succ_cons]
        exact List.mem_cons_self _ _
      have := hall n this
      omega)]
    rw [if_neg (by
      rintro ⟨hl, hall⟩
      have : n ∈ (n :: rest).take 120 := by
        rw [show (120 : Nat) = 119 + 1 from rfl, List.take_succ_cons]
        exact List.mem_cons_self _ _
      have := hall n this
      omega)]
    rw [List.find?_eq_none]
    intro s hmem
    have hs := List.mem_range'.mp hmem
    have hs2 : 2 ≤ s := by omega
    have hs16 : s < 16 := by omega
    rw [decide_eq_true_eq]
    rintro ⟨hlen, hmax⟩
    have hc := tableCount_pos s hs16
    have hnin : n ∈ (n :: rest).take (tableCount s) := by
      rw [show tableCount s = (tableCount s - 1) + 1 by omega, List.take_succ_cons]
      exact List.mem_cons_self _ _
    have hpos : 0 < 1 <<< tableBits s := by
      rw [Nat.shiftLeft_eq, one_mul]
      exact Nat.pos_pow_of_pos _ (by norm_num)
    have := (maxList_lt_iff _ _ hpos).mp hmax n hnin
    rw [Nat.shiftLeft_eq, one_mul] at this
    have hble : (2 : Nat) ^ tableBits s ≤ 2 ^ 60 :=
      Nat.pow_le_pow_right (by norm_num) (tableBits_le s hs16)
    omega

theorem packFold (bits : Nat) : ∀ (ws : List Nat) (k acc : Nat),
    (∀ x ∈ ws, x < 2 ^ bits) → acc < 2 ^ (4 + bits * k) →
    (List.enumFrom k ws).foldl
        (fun encoded jv => encoded ||| jv.2 <<< (4 + bits * jv.1)) acc
      = acc + 2 ^ (4 + bits * k) * hornerB bits ws ∧
    acc + 2 ^ (4 + bits * k) * hornerB bits ws
      < 2 ^ (4 + bits * (k + ws.length)) := by
  intro ws
  induction ws with
  | nil =>
    intro k acc _ hacc
    refine ⟨by simp [hornerB], ?_⟩
    simpa [hornerB] using hacc
  | cons x ws ih =>
    intro k acc hws hacc
    rw [List.enumFrom_cons, List.foldl_cons]
    have hx : x < 2 ^ bits := hws x (by simp)
    have hsh : x <<< (4 + bits * k) = 2 ^ (4 + bits * k) * x := by
      rw [Nat.shiftLeft_eq]; ring
    rw [hsh, lor_mul_two_pow_eq_add hacc]
    have hpow : (2 : Nat) ^ (4 + bits * (k + 1)) = 2 ^ (4 + bits * k) * 2 ^ bits := by
      rw [← pow_add]; congr 1; ring
    have hacc1 : acc + 2 ^ (4 + bits * k) * x < 2 ^ (4 + bits * (k + 1)) := by
      have h1 : acc + 2 ^ (4 + bits * k) * x < 2 ^ (4 + bits * k) * (x + 1) := by
        have : 2 ^ (4 + bits * k) * (x + 1) = 2 ^ (4 + bits * k) * x + 2 ^ (4 + bits * k) := by
          ring
        omega
      have h2 : 2 ^ (4 + bits * k) * (x + 1) ≤ 2 ^ (4 + bits * k) * 2 ^ bits :=
        Nat.mul_le_mul_left _ hx
      rw [hpow]
      omega
    obtain ⟨ih1, ih2⟩ := ih (k + 1) (acc + 2 ^ (4 + bits * k) * x)
      (fun y hy => hws y (by simp [hy])) hacc1
    rw [ih1]
    have hmerge : acc + 2 ^ (4 + bits * k) * x
        + 2 ^ (4 + bits * (k + 1)) * hornerB bits ws
        = acc + 2 ^ (4 + bits * k) * hornerB bits (x :: ws) := by
      rw [hornerB, hpow]
      ring
    refine ⟨hmerge, ?_⟩
    rw [← hmerge]
    have hexp : 4 + bits * (k + 1 + ws.length) = 4 + bits * (k + (x :: ws).length) := by
      rw [List.length_cons]; ring
    rw [← hexp]
    exact ih2

theorem packWord_eq (s bits : Nat) (ws : List Nat) (hs : s < 16)
    (hws : ∀ x ∈ ws, x < 2 ^ bits) :
    packWord s bits ws = s + 16 * hornerB bits ws ∧
    packWord s bits ws < 2 ^ (4 + bits * ws.length) := by
  have h := packFold bits ws 0 s hws (by simpa using hs)
  rw [packWord]
  have henum : ws.enum = List.enumFrom 0 ws := rfl
  rw [henum]
  simp only [Nat.mul_zero, Nat.add_zero, Nat.zero_add] at h
  have h16 : (2 : Nat) ^ 4 = 16 := by norm_num
  rw [h16] at h
  exact ⟨h.1, h.1 ▸ h.2⟩

theorem horner_div (bits : Nat) : ∀ (j : Nat) (ws : List Nat),
    (∀ x ∈ ws, x < 2 ^ bits) →
    hornerB bits ws / 2 ^ (bits * j) = hornerB bits (ws.drop j) := by
  intro j
  induction j with
  | zero => intro ws _; simp
  | succ j ih =>
    intro ws hws
    match ws with
    | [] => simp [hornerB]
    | x :: ws =>
      have hx : x < 2 ^ bits := hws x (by simp)
      rw [hornerB]
      have hexp : bits * (j + 1) = bits + bits * j := by ring
      rw [hexp, pow_add, ← Nat.div_div_eq_div_mul]
      rw [Nat.add_mul_div_left _ _ (Nat.pos_pow_of_pos bits (by norm_num)),
        Nat.div_eq_of_lt hx, Nat.zero_add]
      rw [ih ws (fun y hy => hws y (by simp [hy]))]
      rfl

theorem word_extract (s bits : Nat) (ws : List Nat) (j : Nat) (hs : s < 16)
    (hws : ∀ x ∈ ws, x < 2 ^ bits) (hj : j < ws.length) :
    (s + 16 * hornerB bits ws) >>> (4 + bits * j) &&& ((1 <<< bits) - 1)
      = ws.getD j 0 := by
  rw [Nat.shiftRight_eq_div_pow, Nat.shiftLeft_eq, one_mul,
    Nat.and_pow_two_sub_one_eq_mod]
  have h4 : (2 : Nat) ^ (4 + bits * j) = 16 * 2 ^ (bits * j) := by
    rw [pow_add]; norm_num
  rw [h4, ← Nat.div_div_eq_div_mul,
    Nat.add_mul_div_left _ _ (by norm_num : (0 : Nat) < 16),
    Nat.div_eq_of_lt hs, Nat.zero_add, horner_div bits j ws hws]
  have hgetD : ws.getD j 0 = ws[j] := by
    rw [List.getD_eq_getElem?_getD, List.getElem?_eq_getElem hj]
    rfl
  have hdrop : ws.drop j = ws.getD j 0 :: ws.drop (j + 1) := by
    rw [List.drop_eq_getElem_cons hj, hgetD]
  rw [hdrop, hornerB, Nat.add_mul_mod_self_left]
  refine Nat.mod_eq_of_lt (hws _ ?_)
  rw [hgetD]
  exact List.getElem_mem hj

theorem range_map_getD (l : List Nat) :
    (List.range l.length).map (fun j => l.getD j 0) = l := by
  induction l with
  | nil => rfl
  | cons x xs ih =>
    rw [List.length_cons, List.range_succ_eq_map, List.map_cons, List.map_map]
    have hcomp : ((fun j => (x :: xs).getD j 0) ∘ Nat.succ) = fun j => xs.getD j 0 :=
      funext fun j => rfl
    rw [hcomp, ih]
    rfl

theorem wordToBytesBE_length (v : Nat) : (wordToBytesBE v).length = 8 := by
  simp [wordToBytesBE]

theorem bytesToWordBE_wordToBytesBE (v : Nat) (h : v < 2 ^ 64) :
    bytesToWordBE (wordToBytesBE v) = v := by
  have h8 : List.range 8 = [0, 1, 2, 3, 4, 5, 6, 7] := rfl
  rw [wordToBytesBE, h8, bytesToWordBE]
  simp only [List.map_cons, List.map_nil, List.foldl_cons, List.foldl_nil]
  norm_num
  omega

theorem s8b_decode_nil : simple8b_decode [] = [] := by
  rw [simple8b_decode]

theorem s8b_decode_step (l rest : List Nat) (h8 : l.length = 8) :
    simple8b_decode (l ++ rest) =
      (if bytesToWordBE l &&& 0xF = 0 then List.replicate 240 1
       else if bytesToWordBE l &&& 0xF = 1 then List.replicate 120 1
       else (List.range (tableCount (bytesToWordBE l &&& 0xF))).map fun j =>
         bytesToWordBE l >>> (4 + tableBits (bytesToWordBE l &&& 0xF) * j) &&&
           ((1 <<< tableBits (bytesToWordBE l &&& 0xF)) - 1))
      ++ simple8b_decode rest := by
  match l with
  | [] => rw [List.length_nil] at h8; omega
  | b :: bs =>
    have hbs : bs.length = 7 := by
      rw [List.length_cons] at h8; omega
    rw [show (b :: bs) ++ rest = b :: (bs ++ rest) from rfl, simple8b_decode]
    rw [show (8 : Nat) = 7 + 1 from rfl, List.take_succ_cons,
      List.take_left' hbs, List.drop_left' hbs]

theorem s8b_encode_nil : simple8b_encode [] = some [] := by
  rw [simple8b_encode]

theorem s8b_encode_step (n : Nat) (rest : List Nat) (selector : Nat)
    (h : find_selector (n :: rest) = some selector) :
    simple8b_encode (n :: rest) =
      ((if selector = 0 then simple8b_encode ((n :: rest).drop 240)
        else if selector = 1 then simple8b_encode ((n :: rest).drop 120)
        else simple8b_encode ((n :: rest).drop (tableCount selector))).map
        fun bs =>
          (if selector = 0 ∨ selector = 1 then wordToBytesBE selector
           else wordToBytesBE
             (packWord selector (tableBits selector)
               ((n :: rest).take (tableCount selector)))) ++ bs) := by
  rw [simple8b_encode, h]

theorem s8b_enc_none_step (n : Nat) (rest : List Nat)
    (h : find_selector (n :: rest) = none) : simple8b_encode (n :: rest) = none := by
  rw [simple8b_encode, h]

theorem s8b_window_lt (n : Nat) (rest : List Nat) (selector : Nat)
    (h2 : 2 ≤ selector) (h16 : selector < 16)
    (hmax : maxList ((n :: rest).take (tableCount selector))
      < 1 <<< tableBits selector) :
    ∀ x ∈ (n :: rest).take (tableCount selector), x < 2 ^ tableBits selector := by
  have hbpos : 0 < 1 <<< tableBits selector := by
    rw [Nat.shiftLeft_eq, one_mul]
    positivity
  intro x hx
  have := (maxList_lt_iff _ _ hbpos).mp hmax x hx
  rwa [Nat.shiftLeft_eq, one_mul] at this

theorem s8b_enc_dec (ns : List Nat) (hlt : ∀ g ∈ ns, g < 2 ^ 60) :
    ∃ bs, simple8b_encode ns = some bs ∧ simple8b_decode bs = ns := by
  induction ns using simple8b_encode.induct with
  | case1 => exact ⟨[], s8b_encode_nil, s8b_decode_nil⟩
  | case2 n rest h =>
    exfalso
    have h1 := (find_selector_none_iff n rest).mp h
    have h2 := hlt n (by simp)
    omega
  | case3 n rest selector h ih240 ih120 ihc =>
    by_cases h0 : selector = 0
    · subst h0
      have hc := (find_selector_eq_zero_iff (n :: rest)).mp h
      obtain ⟨bs, hbs, hdec⟩ := ih240 fun g hg => hlt g (List.mem_of_mem_drop hg)
      refine ⟨wordToBytesBE 0 ++ bs, ?_, ?_⟩
      · rw [s8b_encode_step n rest 0 h, if_pos rfl, hbs]
        rw [if_pos (Or.inl rfl)]
        rfl
      · rw [s8b_decode_step _ _ (wordToBytesBE_length 0),
          bytesToWordBE_wordToBytesBE 0 (by norm_num),
          show (0 : Nat) &&& 0xF = 0 from rfl, if_pos rfl, hdec]
        have htake : (n :: rest).take 240 = List.replicate 240 1 := by
          rw [List.eq_replicate_iff]
          exact ⟨by rw [List.length_take]; omega, hc.2⟩
        conv_rhs => rw [← List.take_append_drop 240 (n :: rest)]
        rw [htake]
    · by_cases h1 : selector = 1
      · subst h1
        have hc := (find_selector_eq_one_iff (n :: rest)).mp h
        obtain ⟨bs, hbs, hdec⟩ := ih120 fun g hg => hlt g (List.mem_of_mem_drop hg)
        refine ⟨wordToBytesBE 1 ++ bs, ?_, ?_⟩
        · rw [s8b_encode_step n rest 1 h, if_neg h0, if_pos rfl, hbs]
          rw [if_pos (Or.inr rfl)]
          rfl
        · rw [s8b_decode_step _ _ (wordToBytesBE_length 1),
            bytesToWordBE_wordToBytesBE 1 (by norm_num),
            show (1 : Nat) &&& 0xF = 1 from rfl, if_neg (by omega), if_pos rfl, hdec]
          have htake : (n :: rest).take 120 = List.replicate 120 1 := by
            rw [List.eq_replicate_iff]
            exact ⟨by rw [List.length_take]; omega, hc.2.2⟩
          conv_rhs => rw [← List.take_append_drop 120 (n :: rest)]
          rw [htake]
      · have h2 : 2 ≤ selector := by omega
        obtain ⟨h16, ⟨hlen, hmax⟩, _⟩ := find_selector_ge_two _ _ h h2
        have hwin := s8b_window_lt n rest selector h2 h16 hmax
        have hcnt1 : 1 ≤ tableCount selector := tableCount_pos _ h16
        have htklen : ((n :: rest).take (tableCount selector)).length
            = tableCount selector := by
          rw [List.length_take]
          omega
        obtain ⟨hpack, hbound⟩ :=
          packWord_eq selector (tableBits selector)
            ((n :: rest).take (tableCount selector)) (by omega) hwin
        have hb64 : packWord selector (tableBits selector)
            ((n :: rest).take (tableCount selector)) < 2 ^ 64 := by
          refine lt_of_lt_of_le hbound ?_
          apply Nat.pow_le_pow_right (by norm_num)
          rw [htklen]
          exact tableLayout selector h2 h16
        obtain ⟨bs, hbs, hdec⟩ := ihc h0 h1 fun g hg => hlt g (List.mem_of_mem_drop hg)
        refine ⟨wordToBytesBE (packWord selector (tableBits selector)
          ((n :: rest).take (tableCount selector))) ++ bs, ?_, ?_⟩
        · rw [s8b_encode_step n rest selector h, if_neg h0, if_neg h1, hbs]
          rw [if_neg (by tauto)]
          rfl
        · rw [s8b_decode_step _ _ (wordToBytesBE_length _),
            bytesToWordBE_wordToBytesBE _ hb64]
          have hsel : packWord selector (tableBits selector)
              ((n :: rest).take (tableCount selector)) &&& 0xF = selector := by
            rw [hpack, show (0xF : Nat) = 2 ^ 4 - 1 from rfl,
              Nat.and_pow_two_sub_one_eq_mod,
              show (2 : Nat) ^ 4 = 16 from rfl, Nat.add_mul_mod_self_left]
            exact Nat.mod_eq_of_lt (by omega)
          rw [hsel, if_neg h0, if_neg h1, hpack]
          have hptw : (List.range ((n :: rest).take (tableCount selector)).length).map
                (fun j =>
                  (selector + 16 * hornerB (tableBits selector)
                    ((n :: rest).take (tableCount selector)))
                    >>> (4 + tableBits selector * j) &&&
                    ((1 <<< tableBits selector) - 1))
              = (n :: rest).take (tableCount selector) :=
            (List.map_congr_left fun j hj =>
              word_extract selector (tableBits selector) _ j (by omega) hwin
                (List.mem_range.mp hj)).trans (range_map_getD _)
          rw [htklen] at hptw
          rw [hptw, hdec]
          exact List.take_append_drop _ _

theorem s8b_enc_none (ns : List Nat) (hbad : ∃ g ∈ ns, 2 ^ 60 ≤ g) :
    simple8b_encode ns = none := by
  induction ns using simple8b_encode.induct with
  | case1 => simp at hbad
  | case2 n rest h => exact s8b_enc_none_step n rest h
  | case3 n rest selector h ih240 ih120 ihc =>
    obtain ⟨g, hg, hbig⟩ := hbad
    have hsplit : ∀ c : Nat, g ∈ (n :: rest).take c ∨ g ∈ (n :: rest).drop c := by
      intro c
      rw [← List.mem_append, List.take_append_drop]
      exact hg
    by_cases h0 : selector = 0
    · subst h0
      have hc := (find_selector_eq_zero_iff (n :: rest)).mp h
      have hgd : g ∈ (n :: rest).drop 240 := by
        rcases hsplit 240 with htk | hdr
        · have := hc.2 g htk
          omega
        · exact hdr
      rw [s8b_encode_step n rest 0 h, if_pos rfl, ih240 ⟨g, hgd, hbig⟩]
      rfl
    · by_cases h1 : selector = 1
      · subst h1
        have hc := (find_selector_eq_one_iff (n :: rest)).mp h
        have hgd : g ∈ (n :: rest).drop 120 := by
          rcases hsplit 120 with htk | hdr
          · have := hc.2.2 g htk
            omega
          · exact hdr
        rw [s8b_encode_step n rest 1 h, if_neg h0, if_pos rfl, ih120 ⟨g, hgd, hbig⟩]
        rfl
      · have h2 : 2 ≤ selector := by omega
        obtain ⟨h16, ⟨hlen, hmax⟩, _⟩ := find_selector_ge_two _ _ h h2
        have hwin := s8b_window_lt n rest selector h2 h16 hmax
        have hgd : g ∈ (n :: rest).drop (tableCount selector) := by
          rcases hsplit (tableCount selector) with htk | hdr
          · exfalso
            have hlt := hwin g htk
            have hble : (2 : Nat) ^ tableBits selector ≤ 2 ^ 60 :=
              Nat.pow_le_pow_right (by norm_num) (tableBits_le _ h16)
            omega
          · exact hdr
        rw [s8b_encode_step n rest selector h, if_neg h0, if_neg h1,
          ihc h0 h1 ⟨g, hgd, hbig⟩]
        rfl

theorem s8b_round_trip (xs : List Nat) (hne : xs ≠ [])
    (hasc : List.Pairwise (· < ·) xs) (hgap : ∀ g ∈ gapList xs, g < 2 ^ 60) :
    (encode xs).bind decode = some xs := by
  match xs with
  | p :: rest =>
    rw [encode]
    obtain ⟨bs, hbs, hdec⟩ := s8b_enc_dec (gapList (p :: rest)) hgap
    rw [hbs]
    show decode bs = some (p :: rest)
    unfold decode
    rw [hdec, gapList]
    exact congrArg some (prefixSums_gapAux rest p (List.chain_iff_pairwise.mpr hasc))

theorem s8b_encode_none_iff (xs : List Nat) (hne : xs ≠ []) :
    encode xs = none ↔ ∃ g ∈ gapList xs, 2 ^ 60 ≤ g := by
  match xs with
  | p :: rest =>
    rw [encode]
    constructor
    · intro h
      by_contra hno
      push_neg at hno
      obtain ⟨bs, hbs, _⟩ := s8b_enc_dec (gapList (p :: rest)) fun g hg => hno g hg
      rw [h] at hbs
      cases hbs
    · exact s8b_enc_none _

end Simple8bPostings

/-! ## Merge lemmas -/

theorem lexLe_fst {a b : HEntry} (h : lexLe a b) : a.1 ≤ b.1 := by
  rcases h with h | ⟨h, _⟩
  · exact le_of_lt h
  · exact le_of_eq h

theorem mem_pushEntry (h : List HEntry) (e x : HEntry) :
    x ∈ pushEntry h e ↔ x = e ∨ x ∈ h := by
  rw [pushEntry, List.mem_orderedInsert]

theorem pushEntry_sorted (h : List HEntry) (e : HEntry)
    (hs : List.Pairwise lexLe h) : List.Pairwise lexLe (pushEntry h e) :=
  List.Sorted.orderedInsert e h hs

theorem pushEntry_idx_nodup (h : List HEntry) (e : HEntry)
    (hn : (h.map fun x => x.2.1).Nodup) (hni : e.2.1 ∉ h.map fun x => x.2.1) :
    ((pushEntry h e).map fun x => x.2.1).Nodup := by
  have hperm : List.Perm ((pushEntry h e).map fun x => x.2.1)
      ((e :: h).map fun x => x.2.1) :=
    (List.perm_orderedInsert lexLe e h).map _
  refine hperm.symm.nodup ?_
  rw [List.map_cons, List.nodup_cons]
  exact ⟨hni, hn⟩

theorem getD_set_ne {l : List (List IRec)} {i j : Nat} {a : List IRec}
    (h : i ≠ j) : (l.set i a).getD j [] = l.getD j [] := by
  rw [List.getD_eq_getElem?_getD, List.getD_eq_getElem?_getD,
    List.getElem?_set_ne h]

theorem getD_set_self {l : List (List IRec)} {i : Nat} {a : List IRec}
    (h : i < l.length) : (l.set i a).getD i [] = a := by
  rw [List.getD_eq_getElem?_getD, List.getElem?_set_self h]
  rfl

theorem getD_mem_of_lt {l : List (List IRec)} {j : Nat} (h : j < l.length) :
    l.getD j [] ∈ l := by
  rw [List.getD_eq_getElem?_getD, List.getElem?_eq_getElem h]
  exact List.getElem_mem h

theorem mem_initHeapAux : ∀ (rs : List (List IRec)) (j : Nat) (h : List HEntry)
    (e : HEntry), e ∈ initHeapAux j rs h ↔
      e ∈ h ∨ ∃ k, k < rs.length ∧ ∃ r tl, rs.getD k [] = r :: tl ∧
        e = (r.1, j + k, r.2) := by
  intro rs
  induction rs with
  | nil =>
    intro j h e
    rw [initHeapAux]
    simp
  | cons x rs ih =>
    intro j h e
    match x with
    | [] =>
      rw [initHeapAux, ih]
      constructor
      · rintro (he | ⟨k, hk, r, tl, hget, rfl⟩)
        · exact Or.inl he
        · exact Or.inr ⟨k + 1, by simpa using hk, r, tl, by simpa using hget, by
            rw [show j + 1 + k = j + (k + 1) by omega]⟩
      · rintro (he | ⟨k, hk, r, tl, hget, rfl⟩)
        · exact Or.inl he
        · match k with
          | 0 => simp at hget
          | k + 1 =>
            exact Or.inr ⟨k, by simp at hk; omega, r, tl, by simpa using hget, by
              rw [show j + (k + 1) = j + 1 + k by omega]⟩
    | y :: ytl =>
      rw [initHeapAux, ih]
      constructor
      · rintro (he | ⟨k, hk, r, tl, hget, rfl⟩)
        · rw [mem_pushEntry] at he
          rcases he with rfl | he
          · exact Or.inr ⟨0, by simp, y, ytl, rfl, by simp⟩
          · exact Or.inl he
        · exact Or.inr ⟨k + 1, by simpa using hk, r, tl, by simpa using hget, by
            rw [show j + 1 + k = j + (k + 1) by omega]⟩
      · rintro (he | ⟨k, hk, r, tl, hget, rfl⟩)
        · exact Or.inl (by rw [mem_pushEntry]; exact Or.inr he)
        · match k with
          | 0 =>
            simp only [List.getD_cons_zero] at hget
            cases hget
            exact Or.inl (by rw [mem_pushEntry]; exact Or.inl (by simp))
          | k + 1 =>
            exact Or.inr ⟨k, by simp at hk; omega, r, tl, by simpa using hget, by
              rw [show j + (k + 1) = j + 1 + k by omega]⟩

theorem initHeapAux_sorted : ∀ (rs : List (List IRec)) (j : Nat)
    (h : List HEntry), List.Pairwise lexLe h →
    List.Pairwise lexLe (initHeapAux j rs h) := by
  intro rs
  induction rs with
  | nil => intro j h hs; rw [initHeapAux]; exact hs
  | cons x rs ih =>
    intro j h hs
    match x with
    | [] => rw [initHeapAux]; exact ih _ _ hs
    | y :: ytl => rw [initHeapAux]; exact ih _ _ (pushEntry_sorted _ _ hs)

theorem initHeapAux_idx_nodup : ∀ (rs : List (List IRec)) (j : Nat)
    (h : List HEntry), (∀ e ∈ h, e.2.1 < j) →
    ((h.map fun e => e.2.1).Nodup) →
    ((initHeapAux j rs h).map fun e => e.2.1).Nodup ∧
      ∀ e ∈ initHeapAux j rs h, e.2.1 < j + rs.length := by
  intro rs
  induction rs with
  | nil =>
    intro j h hlt hn
    rw [initHeapAux]
    exact ⟨hn, fun e he => by have := hlt e he; omega⟩
  | cons x rs ih =>
    intro j h hlt hn
    match x with
    | [] =>
      rw [initHeapAux]
      obtain ⟨h1, h2⟩ := ih (j + 1) h (fun e he => by have := hlt e he; omega) hn
      refine ⟨h1, fun e he => ?_⟩
      have := h2 e he
      simp only [List.length_cons]
      omega
    | y :: ytl =>
      rw [initHeapAux]
      have hlt2 : ∀ e ∈ pushEntry h (y.1, j, y.2), e.2.1 < j + 1 := by
        intro e he
        rw [mem_pushEntry] at he
        rcases he with rfl | he
        · simp
        · have := hlt e he; omega
      have hn2 : ((pushEntry h (y.1, j, y.2)).map fun e => e.2.1).Nodup := by
        refine pushEntry_idx_nodup h _ hn ?_
        intro hmem
        rw [List.mem_map] at hmem
        obtain ⟨e, he, heq⟩ := hmem
        have := hlt e he
        simp at heq
        omega
      obtain ⟨h1, h2⟩ := ih (j + 1) _ hlt2 hn2
      refine ⟨h1, fun e he => ?_⟩
      have := h2 e he
      simp only [List.length_cons]
      omega

theorem mergeLoop_nil (rem : List (List IRec)) (cur : Int) (acc : List Nat) :
    mergeLoop rem [] cur acc = if acc = [] then [] else [(cur, acc)] := by
  rw [mergeLoop]

theorem mergeLoop_cons_exh (rem : List (List IRec)) (t : Int) (i : Nat)
    (p : List Nat) (heap1 : List HEntry) (cur : Int) (acc : List Nat)
    (h : rem.getD i [] = []) :
    mergeLoop rem ((t, i, p) :: heap1) cur acc =
      (if cur ≠ -1 ∧ t ≠ cur then [(cur, acc)] else []) ++
      mergeLoop rem heap1 t
        (if (if cur ≠ -1 ∧ t ≠ cur then [] else acc) = [] then p
         else sort_union_list (if cur ≠ -1 ∧ t ≠ cur then [] else acc) p) := by
  rw [mergeLoop, h]

theorem mergeLoop_cons_adv (rem : List (List IRec)) (t : Int) (i : Nat)
    (p : List Nat) (heap1 : List HEntry) (cur : Int) (acc : List Nat)
    (r : IRec) (rs : List IRec) (h : rem.getD i [] = r :: rs) :
    mergeLoop rem ((t, i, p) :: heap1) cur acc =
      (if cur ≠ -1 ∧ t ≠ cur then [(cur, acc)] else []) ++
      mergeLoop (rem.set i rs) (pushEntry heap1 (r.1, i, r.2)) t
        (if (if cur ≠ -1 ∧ t ≠ cur then [] else acc) = [] then p
         else sort_union_list (if cur ≠ -1 ∧ t ≠ cur then [] else acc) p) := by
  rw [mergeLoop, h]

theorem future_transfer_exh (rem : List (List IRec)) (t : Int) (i : Nat)
    (p : List Nat) (heap1 : List HEntry) (t' : Int) (x : Nat) :
    FutureP rem ((t, i, p) :: heap1) t' x ↔
      (t' = t ∧ x ∈ p) ∨ FutureP rem heap1 t' x := by
  unfold FutureP
  constructor
  · rintro (⟨e, he, het, hex⟩ | hr)
    · rcases List.mem_cons.mp he with rfl | he
      · exact Or.inl ⟨het.symm, hex⟩
      · exact Or.inr (Or.inl ⟨e, he, het, hex⟩)
    · exact Or.inr (Or.inr hr)
  · rintro (⟨rfl, hx⟩ | ⟨e, he, het, hex⟩ | hr)
    · exact Or.inl ⟨_, List.mem_cons_self _ _, rfl, hx⟩
    · exact Or.inl ⟨e, List.mem_cons_of_mem _ he, het, hex⟩
    · exact Or.inr hr

theorem futureT_transfer_exh (rem : List (List IRec)) (t : Int) (i : Nat)
    (p : List Nat) (heap1 : List HEntry) (t' : Int) :
    FutureT rem ((t, i, p) :: heap1) t' ↔ t' = t ∨ FutureT rem heap1 t' := by
  unfold FutureT
  constructor
  · rintro (⟨e, he, het⟩ | hr)
    · rcases List.mem_cons.mp he with rfl | he
      · exact Or.inl het.symm
      · exact Or.inr (Or.inl ⟨e, he, het⟩)
    · exact Or.inr (Or.inr hr)
  · rintro (rfl | ⟨e, he, het⟩ | hr)
    · exact Or.inl ⟨_, List.mem_cons_self _ _, rfl⟩
    · exact Or.inl ⟨e, List.mem_cons_of_mem _ he, het⟩
    · exact Or.inr hr

theorem future_transfer_adv (rem : List (List IRec)) (t : Int) (i : Nat)
    (p : List Nat) (heap1 : List HEntry) (r : IRec) (rs : List IRec)
    (h : rem.getD i [] = r :: rs) (hlen : i < rem.length) (t' : Int) (x : Nat) :
    FutureP rem ((t, i, p) :: heap1) t' x ↔
      (t' = t ∧ x ∈ p) ∨
      FutureP (rem.set i rs) (pushEntry heap1 (r.1, i, r.2)) t' x := by
  rw [future_transfer_exh]
  unfold FutureP
  constructor
  · rintro (h1 | ⟨e, he, het, hex⟩ | ⟨j, hj, rec, hrec, hrt, hrx⟩)
    · exact Or.inl h1
    · exact Or.inr (Or.inl ⟨e, (mem_pushEntry _ _ _).mpr (Or.inr he), het, hex⟩)
    · by_cases hij : j = i
      · subst hij
        rw [h] at hrec
        rcases List.mem_cons.mp hrec with rfl | hrec
        · exact Or.inr (Or.inl ⟨(rec.1, j, rec.2),
            (mem_pushEntry _ _ _).mpr (Or.inl rfl), hrt, hrx⟩)
        · exact Or.inr (Or.inr ⟨j, by simpa using hj,
            rec, by rwa [getD_set_self hlen], hrt, hrx⟩)
      · exact Or.inr (Or.inr ⟨j, by simpa using hj, rec,
          by rwa [getD_set_ne (fun hh => hij hh.symm)], hrt, hrx⟩)
  · rintro (h1 | ⟨e, he, het, hex⟩ | ⟨j, hj, rec, hrec, hrt, hrx⟩)
    · exact Or.inl h1
    · rcases (mem_pushEntry _ _ _).mp he with rfl | he
      · exact Or.inr (Or.inr ⟨i, hlen, r, by rw [h]; exact List.mem_cons_self _ _,
          het, hex⟩)
      · exact Or.inr (Or.inl ⟨e, he, het, hex⟩)
    · rw [List.length_set] at hj
      by_cases hij : j = i
      · subst hij
        rw [getD_set_self hlen] at hrec
        exact Or.inr (Or.inr ⟨j, hlen, rec,
          by rw [h]; exact List.mem_cons_of_mem _ hrec, hrt, hrx⟩)
      · exact Or.inr (Or.inr ⟨j, hj, rec,
          by rwa [getD_set_ne (fun hh => hij hh.symm)] at hrec, hrt, hrx⟩)

theorem futureT_transfer_adv (rem : List (List IRec)) (t : Int) (i : Nat)
    (p : List Nat) (heap1 : List HEntry) (r : IRec) (rs : List IRec)
    (h : rem.getD i [] = r :: rs) (hlen : i < rem.length) (t' : Int) :
    FutureT rem ((t, i, p) :: heap1) t' ↔
      t' = t ∨ FutureT (rem.set i rs) (pushEntry heap1 (r.1, i, r.2)) t' := by
  rw [futureT_transfer_exh]
  unfold FutureT
  constructor
  · rintro (h1 | ⟨e, he, het⟩ | ⟨j, hj, rec, hrec, hrt⟩)
    · exact Or.inl h1
    · exact Or.inr (Or.inl ⟨e, (mem_pushEntry _ _ _).mpr (Or.inr he), het⟩)
    · by_cases hij : j = i
      · subst hij
        rw [h] at hrec
        rcases List.mem_cons.mp hrec with rfl | hrec
        · exact Or.inr (Or.inl ⟨(rec.1, j, rec.2),
            (mem_pushEntry _ _ _).mpr (Or.inl rfl), hrt⟩)
        · exact Or.inr (Or.inr ⟨j, by simpa using hj,
            rec, by rwa [getD_set_self hlen], hrt⟩)
      · exact Or.inr (Or.inr ⟨j, by simpa using hj, rec,
          by rwa [getD_set_ne (fun hh => hij hh.symm)], hrt⟩)
  · rintro (h1 | ⟨e, he, het⟩ | ⟨j, hj, rec, hrec, hrt⟩)
    · exact Or.inl h1
    · rcases (mem_pushEntry _ _ _).mp he with rfl | he
      · exact Or.inr (Or.inr ⟨i, hlen, r,
          by rw [h]; exact List.mem_cons_self _ _, het⟩)
      · exact Or.inr (Or.inl ⟨e, he, het⟩)
    · rw [List.length_set] at hj
      by_cases hij : j = i
      · subst hij
        rw [getD_set_self hlen] at hrec
        exact Or.inr (Or.inr ⟨j, hlen, rec,
          by rw [h]; exact List.mem_cons_of_mem _ hrec, hrt⟩)
      · exact Or.inr (Or.inr ⟨j, hj, rec,
          by rwa [getD_set_ne (fun hh => hij hh.symm)] at hrec, hrt⟩)

theorem sumLen_set (l : List (List IRec)) : ∀ (j : Nat) (r : IRec)
    (rs : List IRec), l.getD j [] = r :: rs →
    ((l.set j rs).map List.length).sum + 1 ≤ (l.map List.length).sum := by
  induction l with
  | nil => intro j r rs hj; simp at hj
  | cons x l ih =>
    intro j r rs hj
    cases j with
    | zero =>
      simp only [List.getD_cons_zero] at hj
      subst hj
      simp only [List.set_cons_zero, List.map_cons, List.sum_cons,
        List.length_cons]
      omega
    | succ j =>
      have := ih j r rs (by simpa using hj)
      simp only [List.set_cons_succ, List.map_cons, List.sum_cons]
      omega

theorem acc1_facts (cur t : Int) (acc p : List Nat) (hpne : p ≠ [])
    (hpsort : List.Pairwise (· < ·) p) (hacc1 : cur = -1 → acc = [])
    (hacc2 : cur ≠ -1 → acc ≠ [] ∧ List.Pairwise (· < ·) acc) :
    (if (if cur ≠ -1 ∧ t ≠ cur then [] else acc) = [] then p
     else sort_union_list (if cur ≠ -1 ∧ t ≠ cur then [] else acc) p) ≠ [] ∧
    List.Pairwise (· < ·)
      (if (if cur ≠ -1 ∧ t ≠ cur then [] else acc) = [] then p
       else sort_union_list (if cur ≠ -1 ∧ t ≠ cur then [] else acc) p) := by
  by_cases hc : cur ≠ -1 ∧ t ≠ cur
  · rw [if_pos hc, if_pos rfl]
    exact ⟨hpne, hpsort⟩
  · rw [if_neg hc]
    by_cases hae : acc = []
    · rw [if_pos hae]
      exact ⟨hpne, hpsort⟩
    · rw [if_neg hae]
      have hcne : cur ≠ -1 := fun h => hae (hacc1 h)
      exact ⟨sort_union_ne_nil (Or.inl hae),
        pairwise_sort_union _ _ (hacc2 hcne).2 hpsort⟩

theorem future_lb (rem : List (List IRec)) (t : Int) (i : Nat) (p : List Nat)
    (heap1 : List HEntry)
    (hmin : ∀ e ∈ heap1, lexLe (t, i, p) e)
    (hlink : ∀ e ∈ (t, i, p) :: heap1, ∀ r ∈ rem.getD e.2.1 [], e.1 < r.1)
    (hact : ∀ j, j < rem.length → rem.getD j [] ≠ [] →
      ∃ e ∈ (t, i, p) :: heap1, e.2.1 = j) :
    (∀ t' x, FutureP rem ((t, i, p) :: heap1) t' x → t ≤ t') ∧
    (∀ t', FutureT rem ((t, i, p) :: heap1) t' → t ≤ t') := by
  have hheap : ∀ e ∈ (t, i, p) :: heap1, t ≤ e.1 := by
    intro e he
    rcases List.mem_cons.mp he with rfl | he
    · exact le_refl t
    · exact lexLe_fst (hmin e he)
  have hremb : ∀ j, j < rem.length → ∀ r ∈ rem.getD j [], t ≤ r.1 := by
    intro j hj r hr
    have hne : rem.getD j [] ≠ [] := by
      intro h
      rw [h] at hr
      simp at hr
    obtain ⟨e, he, heidx⟩ := hact j hj hne
    have h1 := hlink e he r (by rw [heidx]; exact hr)
    have h2 := hheap e he
    omega
  constructor
  · rintro t' x (⟨e, he, het, _⟩ | ⟨j, hj, r, hr, hrt, _⟩)
    · rw [← het]
      exact hheap e he
    · rw [← hrt]
      exact hremb j hj r hr
  · rintro t' (⟨e, he, het⟩ | ⟨j, hj, r, hr, hrt⟩)
    · rw [← het]
      exact hheap e he
    · rw [← hrt]
      exact hremb j hj r hr

theorem merge_assemble (cur t : Int) (acc p : List Nat) (OUT1 : List IRec)
    (F F' : Int → Nat → Prop) (G G' : Int → Prop)
    (htrans : ∀ t' x, F t' x ↔ (t' = t ∧ x ∈ p) ∨ F' t' x)
    (htransT : ∀ t', G t' ↔ t' = t ∨ G' t')
    (hlbP : ∀ t' x, F t' x → t ≤ t')
    (hlbT : ∀ t', G t' → t ≤ t')
    (ht0 : 0 ≤ t) (hcurt : cur ≤ t)
    (hacc1 : cur = -1 → acc = [])
    (hacc2 : cur ≠ -1 → acc ≠ [] ∧ List.Pairwise (· < ·) acc)
    (hK1 : List.Pairwise (· < ·) (OUT1.map Prod.fst))
    (hK2 : ∀ t' q, (t', q) ∈ OUT1 → t ≤ t')
    (hK3 : ∀ t' q, (t', q) ∈ OUT1 → List.Pairwise (· < ·) q ∧
      ∀ x, x ∈ q ↔ ((t ≠ -1 ∧ t' = t ∧
        x ∈ (if (if cur ≠ -1 ∧ t ≠ cur then [] else acc) = [] then p
             else sort_union_list (if cur ≠ -1 ∧ t ≠ cur then [] else acc) p))
        ∨ F' t' x))
    (hK4 : ∀ t', (∃ q, (t', q) ∈ OUT1) ↔ ((t ≠ -1 ∧ t' = t) ∨ G' t')) :
    List.Pairwise (· < ·)
      (((if cur ≠ -1 ∧ t ≠ cur then [(cur, acc)] else []) ++ OUT1).map
        Prod.fst) ∧
    (∀ t' q, (t', q) ∈ (if cur ≠ -1 ∧ t ≠ cur then [(cur, acc)] else [])
        ++ OUT1 → cur ≤ t') ∧
    (∀ t' q, (t', q) ∈ (if cur ≠ -1 ∧ t ≠ cur then [(cur, acc)] else [])
        ++ OUT1 →
      List.Pairwise (· < ·) q ∧
      ∀ x, x ∈ q ↔ ((cur ≠ -1 ∧ t' = cur ∧ x ∈ acc) ∨ F t' x)) ∧
    (∀ t', (∃ q, (t', q) ∈ (if cur ≠ -1 ∧ t ≠ cur then [(cur, acc)] else [])
        ++ OUT1) ↔ ((cur ≠ -1 ∧ t' = cur) ∨ G t')) := by
  have htm1 : t ≠ -1 := by omega
  by_cases hc : cur ≠ -1 ∧ t ≠ cur
  · simp only [if_pos hc, if_pos rfl] at hK3 ⊢
    have hclt : cur < t := lt_of_le_of_ne hcurt (Ne.symm hc.2)
    have hsingle : ((cur, acc) :: OUT1 : List IRec)
        = [(cur, acc)] ++ OUT1 := rfl
    rw [← hsingle]
    refine ⟨?_, ?_, ?_, ?_⟩
    · rw [List.map_cons, List.pairwise_cons]
      refine ⟨fun b hb => ?_, hK1⟩
      rw [List.mem_map] at hb
      obtain ⟨⟨t', q⟩, hmem, rfl⟩ := hb
      exact lt_of_lt_of_le hclt (hK2 t' q hmem)
    · intro t' q hmem
      rcases List.mem_cons.mp hmem with heq | hmem
      · rw [Prod.mk.injEq] at heq
        rw [heq.1]
      · exact le_trans (le_of_lt hclt) (hK2 t' q hmem)
    · intro t' q hmem
      rcases List.mem_cons.mp hmem with heq | hmem
      · rw [Prod.mk.injEq] at heq
        obtain ⟨rfl, rfl⟩ := heq
        refine ⟨(hacc2 hc.1).2, fun x => ?_⟩
        constructor
        · intro hx
          exact Or.inl ⟨hc.1, rfl, hx⟩
        · rintro (⟨_, _, hx⟩ | hf)
          · exact hx
          · exact absurd (hlbP _ x hf) (by omega)
      · obtain ⟨hq, hiff⟩ := hK3 t' q hmem
        have ht'cur : t' ≠ cur :=
          ne_of_gt (lt_of_lt_of_le hclt (hK2 t' q hmem))
        refine ⟨hq, fun x => ?_⟩
        rw [hiff x, htrans t' x]
        constructor
        · rintro (⟨_, h1, h2⟩ | hf)
          · exact Or.inr (Or.inl ⟨h1, h2⟩)
          · exact Or.inr (Or.inr hf)
        · rintro (⟨_, h1, _⟩ | ⟨h1, h2⟩ | hf)
          · exact absurd h1 ht'cur
          · exact Or.inl ⟨htm1, h1, h2⟩
          · exact Or.inr hf
    · intro t'
      constructor
      · rintro ⟨q, hq⟩
        rcases List.mem_cons.mp hq with heq | hmem
        · rw [Prod.mk.injEq] at heq
          exact Or.inl ⟨hc.1, heq.1⟩
        · rcases (hK4 t').mp ⟨q, hmem⟩ with ⟨_, h1⟩ | hg
          · exact Or.inr ((htransT t').mpr (Or.inl h1))
          · exact Or.inr ((htransT t').mpr (Or.inr hg))
      · rintro (⟨_, rfl⟩ | hg)
        · exact ⟨acc, List.mem_cons_self _ _⟩
        · rcases (htransT t').mp hg with h1 | hg'
          · obtain ⟨q, hq⟩ := (hK4 t').mpr (Or.inl ⟨htm1, h1⟩)
            exact ⟨q, List.mem_cons_of_mem _ hq⟩
          · obtain ⟨q, hq⟩ := (hK4 t').mpr (Or.inr hg')
            exact ⟨q, List.mem_cons_of_mem _ hq⟩
  · simp only [if_neg hc, List.nil_append] at hK3 ⊢
    rcases not_and_or.mp hc with hcm1 | htc
    · have hcur : cur = -1 := not_not.mp hcm1
      subst hcur
      have hae : acc = [] := hacc1 rfl
      subst hae
      simp only [if_pos rfl] at hK3
      refine ⟨hK1, ?_, ?_, ?_⟩
      · intro t' q hmem
        exact le_trans hcurt (hK2 t' q hmem)
      · intro t' q hmem
        obtain ⟨hq, hiff⟩ := hK3 t' q hmem
        refine ⟨hq, fun x => ?_⟩
        rw [hiff x, htrans t' x]
        constructor
        · rintro (⟨_, h1, h2⟩ | hf)
          · exact Or.inr (Or.inl ⟨h1, h2⟩)
          · exact Or.inr (Or.inr hf)
        · rintro (⟨h1, _⟩ | ⟨h1, h2⟩ | hf)
          · exact absurd rfl h1
          · exact Or.inl ⟨htm1, h1, h2⟩
          · exact Or.inr hf
      · intro t'
        rw [hK4 t', htransT t']
        constructor
        · rintro (⟨_, h1⟩ | hg)
          · exact Or.inr (Or.inl h1)
          · exact Or.inr (Or.inr hg)
        · rintro (⟨h1, _⟩ | h1 | hg)
          · exact absurd rfl h1
          · exact Or.inl ⟨htm1, h1⟩
          · exact Or.inr hg
    · have htcur : t = cur := not_not.mp htc
      subst htcur
      have hcne : t ≠ -1 := htm1
      have hane : acc ≠ [] := (hacc2 hcne).1
      simp only [if_neg hane] at hK3
      refine ⟨hK1, hK2, ?_, ?_⟩
      · intro t' q hmem
        obtain ⟨hq, hiff⟩ := hK3 t' q hmem
        refine ⟨hq, fun x => ?_⟩
        rw [hiff x, htrans t' x]
        constructor
        · rintro (⟨_, h1, h2⟩ | hf)
          · rcases (mem_sort_union acc p x).mp h2 with h3 | h3
            · exact Or.inl ⟨hcne, h1, h3⟩
            · exact Or.inr (Or.inl ⟨h1, h3⟩)
          · exact Or.inr (Or.inr hf)
        · rintro (⟨_, h1, h2⟩ | ⟨h1, h2⟩ | hf)
          · exact Or.inl ⟨hcne, h1, (mem_sort_union acc p x).mpr (Or.inl h2)⟩
          · exact Or.inl ⟨hcne, h1, (mem_sort_union acc p x).mpr (Or.inr h2)⟩
          · exact Or.inr hf
      · intro t'
        rw [hK4 t', htransT t']
        constructor
        · rintro (⟨_, h1⟩ | hg)
          · exact Or.inl ⟨hcne, h1⟩
          · exact Or.inr (Or.inr hg)
        · rintro (⟨_, h1⟩ | h1 | hg)
          · exact Or.inl ⟨hcne, h1⟩
          · exact Or.inl ⟨hcne, h1⟩
          · exact Or.inr hg

theorem mergeLoop_spec_base (rem : List (List IRec)) (cur : Int)
    (acc : List Nat)
    (hact : ∀ j, j < rem.length → rem.getD j [] ≠ [] →
      ∃ e ∈ ([] : List HEntry), e.2.1 = j)
    (hacc1 : cur = -1 → acc = [])
    (hacc2 : cur ≠ -1 → acc ≠ [] ∧ List.Pairwise (· < ·) acc) :
    List.Pairwise (· < ·) ((mergeLoop rem [] cur acc).map Prod.fst) ∧
    (∀ t q, (t, q) ∈ mergeLoop rem [] cur acc → cur ≤ t) ∧
    (∀ t q, (t, q) ∈ mergeLoop rem [] cur acc →
      List.Pairwise (· < ·) q ∧
      ∀ x, x ∈ q ↔ ((cur ≠ -1 ∧ t = cur ∧ x ∈ acc) ∨ FutureP rem [] t x)) ∧
    (∀ t, (∃ q, (t, q) ∈ mergeLoop rem [] cur acc) ↔
      ((cur ≠ -1 ∧ t = cur) ∨ FutureT rem [] t)) := by
  have hremE : ∀ j, j < rem.length → rem.getD j [] = [] := by
    intro j hj
    by_contra hne
    obtain ⟨e, he, _⟩ := hact j hj hne
    simp at he
  have hfutP : ∀ t x, ¬ FutureP rem [] t x := by
    rintro t x (⟨e, he, _⟩ | ⟨j, hj, r, hr, _⟩)
    · simp at he
    · rw [hremE j hj] at hr
      simp at hr
  have hfutT : ∀ t, ¬ FutureT rem [] t := by
    rintro t (⟨e, he, _⟩ | ⟨j, hj, r, hr, _⟩)
    · simp at he
    · rw [hremE j hj] at hr
      simp at hr
  rw [mergeLoop_nil]
  by_cases hae : acc = []
  · rw [if_pos hae]
    have hcur : cur = -1 := by
      by_contra hcn
      exact (hacc2 hcn).1 hae
    refine ⟨by simp, by simp, by simp, fun t => ?_⟩
    constructor
    · rintro ⟨q, hq⟩
      simp at hq
    · rintro (⟨hcn, _⟩ | hf)
      · exact absurd hcur hcn
      · exact absurd hf (hfutT t)
  · rw [if_neg hae]
    have hcur : cur ≠ -1 := fun h => hae (hacc1 h)
    refine ⟨by simp, ?_, ?_, ?_⟩
    · intro t q hmem
      rcases List.mem_singleton.mp hmem with heq
      rw [Prod.mk.injEq] at heq
      rw [heq.1]
    · intro t q hmem
      rcases List.mem_singleton.mp hmem with heq
      rw [Prod.mk.injEq] at heq
      obtain ⟨rfl, rfl⟩ := heq
      refine ⟨(hacc2 hcur).2, fun x => ?_⟩
      constructor
      · intro hx
        exact Or.inl ⟨hcur, rfl, hx⟩
      · rintro (⟨_, _, hx⟩ | hf)
        · exact hx
        · exact absurd hf (hfutP _ x)
    · intro t
      constructor
      · rintro ⟨q, hq⟩
        rcases List.mem_singleton.mp hq with heq
        rw [Prod.mk.injEq] at heq
        exact Or.inl ⟨hcur, heq.1⟩
      · rintro (⟨_, rfl⟩ | hf)
        · exact ⟨acc, List.mem_singleton_self _⟩
        · exact absurd hf (hfutT t)

theorem mergeLoop_spec : ∀ (N : Nat) (rem : List (List IRec))
    (heap : List HEntry) (cur : Int) (acc : List Nat),
    (rem.map List.length).sum + heap.length ≤ N →
    List.Pairwise lexLe heap →
    ((heap.map fun e => e.2.1).Nodup) →
    (∀ e ∈ heap, cur ≤ e.1) →
    (∀ e ∈ heap, 0 ≤ e.1 ∧ e.2.1 < rem.length ∧ e.2.2 ≠ [] ∧
      List.Pairwise (· < ·) e.2.2) →
    (∀ e ∈ heap, ∀ r ∈ rem.getD e.2.1 [], e.1 < r.1) →
    (∀ j, j < rem.length → rem.getD j [] ≠ [] → ∃ e ∈ heap, e.2.1 = j) →
    (∀ l ∈ rem, List.Pairwise (· < ·) (l.map Prod.fst) ∧
      ∀ r ∈ l, 0 ≤ r.1 ∧ r.2 ≠ [] ∧ List.Pairwise (· < ·) r.2) →
    (cur = -1 → acc = []) →
    (cur ≠ -1 → acc ≠ [] ∧ List.Pairwise (· < ·) acc) →
    List.Pairwise (· < ·) ((mergeLoop rem heap cur acc).map Prod.fst) ∧
    (∀ t q, (t, q) ∈ mergeLoop rem heap cur acc → cur ≤ t) ∧
    (∀ t q, (t, q) ∈ mergeLoop rem heap cur acc →
      List.Pairwise (· < ·) q ∧
      ∀ x, x ∈ q ↔ ((cur ≠ -1 ∧ t = cur ∧ x ∈ acc) ∨ FutureP rem heap t x)) ∧
    (∀ t, (∃ q, (t, q) ∈ mergeLoop rem heap cur acc) ↔
      ((cur ≠ -1 ∧ t = cur) ∨ FutureT rem heap t)) := by
  intro N
  induction N with
  | zero =>
    intro rem heap cur acc hN hsort hnodup hcur hent hlink hact hrem ha1 ha2
    have hheap : heap = [] := by
      cases heap with
      | nil => rfl
      | cons e heap1 => simp at hN
    subst hheap
    exact mergeLoop_spec_base rem cur acc hact ha1 ha2
  | succ N ihN =>
    intro rem heap cur acc hN hsort hnodup hcur hent hlink hact hrem ha1 ha2
    match heap with
    | [] => exact mergeLoop_spec_base rem cur acc hact ha1 ha2
    | (t, i, p) :: heap1 =>
      have hhead := hent (t, i, p) (List.mem_cons_self _ _)
      have ht0 : 0 ≤ t := hhead.1
      have hilen : i < rem.length := hhead.2.1
      have hpne : p ≠ [] := hhead.2.2.1
      have hpsort : List.Pairwise (· < ·) p := hhead.2.2.2
      have hmin : ∀ e ∈ heap1, lexLe (t, i, p) e :=
        (List.pairwise_cons.mp hsort).1
      have hsort1 : List.Pairwise lexLe heap1 :=
        (List.pairwise_cons.mp hsort).2
      have hnodup' : i ∉ heap1.map (fun e => e.2.1) ∧
          (heap1.map fun e => e.2.1).Nodup := by
        have hh := hnodup
        rw [List.map_cons] at hh
        exact List.nodup_cons.mp hh
      have hidx_ne : ∀ e ∈ heap1, e.2.1 ≠ i := by
        intro e he heq
        exact hnodup'.1 (List.mem_map.mpr ⟨e, he, heq⟩)
      have hcurt : cur ≤ t := hcur _ (List.mem_cons_self _ _)
      have htm1 : t ≠ -1 := by omega
      have hlb := future_lb rem t i p heap1 hmin hlink hact
      obtain ⟨hacc1ne, hacc1sort⟩ :=
        acc1_facts cur t acc p hpne hpsort ha1 ha2
      cases hget : rem.getD i [] with
      | nil =>
        rw [mergeLoop_cons_exh rem t i p heap1 cur acc hget]
        refine merge_assemble cur t acc p _ _ _ _ _
          (future_transfer_exh rem t i p heap1)
          (futureT_transfer_exh rem t i p heap1)
          hlb.1 hlb.2 ht0 hcurt ha1 ha2 ?K1 ?K2 ?K3 ?K4
        case K1 | K2 | K3 | K4 =>
          first
          | exact (ihN rem heap1 t _
              (by simp only [List.length_cons] at hN; omega)
              hsort1 hnodup'.2
              (fun e he => lexLe_fst (hmin e he))
              (fun e he => hent e (List.mem_cons_of_mem _ he))
              (fun e he => hlink e (List.mem_cons_of_mem _ he))
              (fun j hj hne => by
                obtain ⟨e, he, heidx⟩ := hact j hj hne
                rcases List.mem_cons.mp he with rfl | he
                · exact absurd hget (by rw [show i = j from heidx]; exact hne)
                · exact ⟨e, he, heidx⟩)
              hrem
              (fun h => absurd h htm1)
              (fun _ => ⟨hacc1ne, hacc1sort⟩)).1
          | exact (ihN rem heap1 t _
              (by simp only [List.length_cons] at hN; omega)
              hsort1 hnodup'.2
              (fun e he => lexLe_fst (hmin e he))
              (fun e he => hent e (List.mem_cons_of_mem _ he))
              (fun e he => hlink e (List.mem_cons_of_mem _ he))
              (fun j hj hne => by
                obtain ⟨e, he, heidx⟩ := hact j hj hne
                rcases List.mem_cons.mp he with rfl | he
                · exact absurd hget (by rw [show i = j from heidx]; exact hne)
                · exact ⟨e, he, heidx⟩)
              hrem
              (fun h => absurd h htm1)
              (fun _ => ⟨hacc1ne, hacc1sort⟩)).2.1
          | exact (ihN rem heap1 t _
              (by simp only [List.length_cons] at hN; omega)
              hsort1 hnodup'.2
              (fun e he => lexLe_fst (hmin e he))
              (fun e he => hent e (List.mem_cons_of_mem _ he))
              (fun e he => hlink e (List.mem_cons_of_mem _ he))
              (fun j hj hne => by
                obtain ⟨e, he, heidx⟩ := hact j hj hne
                rcases List.mem_cons.mp he with rfl | he
                · exact absurd hget (by rw [show i = j from heidx]; exact hne)
                · exact ⟨e, he, heidx⟩)
              hrem
              (fun h => absurd h htm1)
              (fun _ => ⟨hacc1ne, hacc1sort⟩)).2.2.1
          | exact (ihN rem heap1 t _
              (by simp only [List.length_cons] at hN; omega)
              hsort1 hnodup'.2
              (fun e he => lexLe_fst (hmin e he))
              (fun e he => hent e (List.mem_cons_of_mem _ he))
              (fun e he => hlink e (List.mem_cons_of_mem _ he))
              (fun j hj hne => by
                obtain ⟨e, he, heidx⟩ := hact j hj hne
                rcases List.mem_cons.mp he with rfl | he
                · exact absurd hget (by rw [show i = j from heidx]; exact hne)
                · exact ⟨e, he, heidx⟩)
              hrem
              (fun h => absurd h htm1)
              (fun _ => ⟨hacc1ne, hacc1sort⟩)).2.2.2
      | cons r rs =>
        have hrrec : r ∈ rem.getD i [] := by
          rw [hget]
          exact List.mem_cons_self _ _
        have hgetmem : rem.getD i [] ∈ rem := getD_mem_of_lt hilen
        obtain ⟨hgsort, hgprops⟩ := hrem _ hgetmem
        obtain ⟨hr0, hrne, hrsort⟩ := hgprops r hrrec
        have hrtail : ∀ rr ∈ rs, r.1 < rr.1 := by
          intro rr hrr
          rw [hget, List.map_cons, List.pairwise_cons] at hgsort
          exact hgsort.1 rr.1 (List.mem_map.mpr ⟨rr, hrr, rfl⟩)
        rw [mergeLoop_cons_adv rem t i p heap1 cur acc r rs hget]
        have hIH := ihN (rem.set i rs) (pushEntry heap1 (r.1, i, r.2)) t
          (if (if cur ≠ -1 ∧ t ≠ cur then [] else acc) = [] then p
           else sort_union_list (if cur ≠ -1 ∧ t ≠ cur then [] else acc) p)
          (by
            have hs := sumLen_set rem i r rs hget
            have hp : (pushEntry heap1 (r.1, i, r.2)).length
                = heap1.length + 1 := List.orderedInsert_length lexLe heap1 _
            simp only [List.length_cons] at hN
            omega)
          (pushEntry_sorted heap1 _ hsort1)
          (pushEntry_idx_nodup heap1 _ hnodup'.2 hnodup'.1)
          (by
            intro e he
            rcases (mem_pushEntry _ _ _).mp he with rfl | he
            · exact le_of_lt (hlink _ (List.mem_cons_self _ _) r hrrec)
            · exact lexLe_fst (hmin e he))
          (by
            intro e he
            rw [List.length_set]
            rcases (mem_pushEntry _ _ _).mp he with rfl | he
            · exact ⟨hr0, hilen, hrne, hrsort⟩
            · exact hent e (List.mem_cons_of_mem _ he))
          (by
            intro e he rr hrr
            rcases (mem_pushEntry _ _ _).mp he with rfl | he
            · rw [getD_set_self hilen] at hrr
              exact hrtail rr hrr
            · rw [getD_set_ne (fun hh => hidx_ne e he hh.symm)] at hrr
              exact hlink e (List.mem_cons_of_mem _ he) rr hrr)
          (by
            intro j hj hne
            rw [List.length_set] at hj
            by_cases hij : j = i
            · subst hij
              exact ⟨(r.1, j, r.2), (mem_pushEntry _ _ _).mpr (Or.inl rfl), rfl⟩
            · rw [getD_set_ne (fun hh => hij hh.symm)] at hne
              obtain ⟨e, he, heidx⟩ := hact j hj hne
              rcases List.mem_cons.mp he with rfl | he
              · exact absurd (show i = j from heidx).symm hij
              · exact ⟨e, (mem_pushEntry _ _ _).mpr (Or.inr he), heidx⟩)
          (by
            intro l hl
            rcases List.mem_or_eq_of_mem_set hl with hl | rfl
            · exact hrem l hl
            · constructor
              · rw [hget, List.map_cons, List.pairwise_cons] at hgsort
                exact hgsort.2
              · intro rr hrr
                exact hgprops rr (by rw [hget]; exact List.mem_cons_of_mem _ hrr))
          (fun h => absurd h htm1)
          (fun _ => ⟨hacc1ne, hacc1sort⟩)
        exact merge_assemble cur t acc p _ _ _ _ _
          (future_transfer_adv rem t i p heap1 r rs hget hilen)
          (futureT_transfer_adv rem t i p heap1 r rs hget hilen)
          hlb.1 hlb.2 ht0 hcurt ha1 ha2 hIH.1 hIH.2.1 hIH.2.2.1 hIH.2.2.2

theorem initRem_getD (rs : List (List IRec)) (j : Nat) (hj : j < rs.length) :
    (rs.map fun l => l.drop 1).getD j [] = (rs.getD j []).drop 1 := by
  rw [List.getD_eq_getElem?_getD, List.getD_eq_getElem?_getD,
    List.getElem?_map, List.getElem?_eq_getElem hj]
  rfl

theorem mem_initHeap (rs : List (List IRec)) (e : HEntry) :
    e ∈ initHeapAux 0 rs [] ↔ ∃ k, k < rs.length ∧ ∃ r tl,
      rs.getD k [] = r :: tl ∧ e = (r.1, k, r.2) := by
  rw [mem_initHeapAux]
  simp

theorem future_init (rs : List (List IRec)) (t : Int) :
    (∀ x, FutureP (rs.map fun l => l.drop 1) (initHeapAux 0 rs []) t x ↔
      ∃ j, j < rs.length ∧ ∃ rec ∈ rs.getD j [], rec.1 = t ∧ x ∈ rec.2) ∧
    (FutureT (rs.map fun l => l.drop 1) (initHeapAux 0 rs []) t ↔
      ∃ j, j < rs.length ∧ ∃ rec ∈ rs.getD j [], rec.1 = t) := by
  constructor
  · intro x
    unfold FutureP
    constructor
    · rintro (⟨e, he, het, hex⟩ | ⟨j, hj, r, hr, hrt, hrx⟩)
      · obtain ⟨k, hk, r, tl, hget, rfl⟩ := (mem_initHeap rs e).mp he
        exact ⟨k, hk, r, by rw [hget]; exact List.mem_cons_self _ _, het, hex⟩
      · rw [List.length_map] at hj
        rw [initRem_getD rs j hj] at hr
        exact ⟨j, hj, r, List.mem_of_mem_drop hr, hrt, hrx⟩
    · rintro ⟨j, hj, rec, hrec, hrt, hrx⟩
      cases hget : rs.getD j [] with
      | nil => rw [hget] at hrec; simp at hrec
      | cons r tl =>
        rw [hget] at hrec
        rcases List.mem_cons.mp hrec with rfl | hrec
        · exact Or.inl ⟨(rec.1, j, rec.2),
            (mem_initHeap rs _).mpr ⟨j, hj, rec, tl, hget, rfl⟩, hrt, hrx⟩
        · refine Or.inr ⟨j, by rwa [List.length_map], rec, ?_, hrt, hrx⟩
          rw [initRem_getD rs j hj, hget]
          exact hrec
  · unfold FutureT
    constructor
    · rintro (⟨e, he, het⟩ | ⟨j, hj, r, hr, hrt⟩)
      · obtain ⟨k, hk, r, tl, hget, rfl⟩ := (mem_initHeap rs e).mp he
        exact ⟨k, hk, r, by rw [hget]; exact List.mem_cons_self _ _, het⟩
      · rw [List.length_map] at hj
        rw [initRem_getD rs j hj] at hr
        exact ⟨j, hj, r, List.mem_of_mem_drop hr, hrt⟩
    · rintro ⟨j, hj, rec, hrec, hrt⟩
      cases hget : rs.getD j [] with
      | nil => rw [hget] at hrec; simp at hrec
      | cons r tl =>
        rw [hget] at hrec
        rcases List.mem_cons.mp hrec with rfl | hrec
        · exact Or.inl ⟨(rec.1, j, rec.2),
            (mem_initHeap rs _).mpr ⟨j, hj, rec, tl, hget, rfl⟩, hrt⟩
        · refine Or.inr ⟨j, by rwa [List.length_map], rec, ?_, hrt⟩
          rw [initRem_getD rs j hj, hget]
          exact hrec

theorem exists_getD_iff_mem (rs : List (List IRec)) (P : List IRec → Prop) :
    (∃ j, j < rs.length ∧ P (rs.getD j [])) ↔ ∃ l ∈ rs, P l := by
  constructor
  · rintro ⟨j, hj, hP⟩
    exact ⟨rs.getD j [], getD_mem_of_lt hj, hP⟩
  · rintro ⟨l, hl, hP⟩
    obtain ⟨j, hj, hget⟩ := List.mem_iff_getElem.mp hl
    refine ⟨j, hj, ?_⟩
    rw [List.getD_eq_getElem?_getD, List.getElem?_eq_getElem hj, hget]
    exact hP

theorem merge_index_spec (indices : List (List IRec))
    (hasc : ∀ reader ∈ indices, List.Pairwise (· < ·) (reader.map Prod.fst))
    (hprops : ∀ reader ∈ indices, ∀ rec ∈ reader,
      0 ≤ rec.1 ∧ rec.2 ≠ [] ∧ List.Pairwise (· < ·) rec.2) :
    List.Pairwise (· < ·) ((merge_index indices).map Prod.fst) ∧
    (∀ t, (∃ q, (t, q) ∈ merge_index indices) ↔
      ∃ reader ∈ indices, ∃ p, (t, p) ∈ reader) ∧
    (∀ t q, (t, q) ∈ merge_index indices →
      List.Pairwise (· < ·) q ∧
      ∀ x, x ∈ q ↔ ∃ reader ∈ indices, ∃ p, (t, p) ∈ reader ∧ x ∈ p) := by
  have hgetD_props : ∀ j, j < indices.length →
      List.Pairwise (· < ·) ((indices.getD j []).map Prod.fst) ∧
      ∀ rec ∈ indices.getD j [], 0 ≤ rec.1 ∧ rec.2 ≠ [] ∧
        List.Pairwise (· < ·) rec.2 := by
    intro j hj
    exact ⟨hasc _ (getD_mem_of_lt hj), hprops _ (getD_mem_of_lt hj)⟩
  have hspec := mergeLoop_spec
    (((indices.map fun l => l.drop 1).map List.length).sum
      + (initHeapAux 0 indices []).length)
    (indices.map fun l => l.drop 1) (initHeapAux 0 indices []) (-1) []
    le_rfl
    (initHeapAux_sorted indices 0 [] List.Pairwise.nil)
    ((initHeapAux_idx_nodup indices 0 [] (fun e he => absurd he
      (List.not_mem_nil e)) List.nodup_nil).1)
    (by
      intro e he
      obtain ⟨k, hk, r, tl, hget, rfl⟩ := (mem_initHeap indices e).mp he
      have := (hgetD_props k hk).2 r (by rw [hget]; exact List.mem_cons_self _ _)
      show (-1 : Int) ≤ r.1
      omega)
    (by
      intro e he
      obtain ⟨k, hk, r, tl, hget, rfl⟩ := (mem_initHeap indices e).mp he
      have hr := (hgetD_props k hk).2 r
        (by rw [hget]; exact List.mem_cons_self _ _)
      exact ⟨hr.1, by rwa [List.length_map], hr.2.1, hr.2.2⟩)
    (by
      intro e he rr hrr
      obtain ⟨k, hk, r, tl, hget, rfl⟩ := (mem_initHeap indices e).mp he
      rw [show ((r.1, k, r.2) : HEntry).2.1 = k from rfl,
        initRem_getD indices k hk, hget] at hrr
      have hps := (hgetD_props k hk).1
      rw [hget, List.map_cons, List.pairwise_cons] at hps
      exact hps.1 rr.1 (List.mem_map.mpr ⟨rr, hrr, rfl⟩))
    (by
      intro j hj hne
      rw [List.length_map] at hj
      rw [initRem_getD indices j hj] at hne
      cases hget : indices.getD j [] with
      | nil => rw [hget] at hne; simp at hne
      | cons r tl =>
        exact ⟨(r.1, j, r.2),
          (mem_initHeap indices _).mpr ⟨j, hj, r, tl, hget, rfl⟩, rfl⟩)
    (by
      intro l hl
      obtain ⟨l0, hl0, rfl⟩ := List.mem_map.mp hl
      constructor
      · have hpl := hasc l0 hl0
        rw [List.map_drop]
        exact hpl.sublist (List.drop_sublist _ _)
      · intro rec hrec
        exact hprops l0 hl0 rec (List.mem_of_mem_drop hrec))
    (fun _ => rfl)
    (fun h => absurd rfl h)
  obtain ⟨hC1, hC2, hC3, hC4⟩ := hspec
  rw [show mergeLoop (indices.map fun l => l.drop 1) (initHeapAux 0 indices [])
      (-1) [] = merge_index indices from rfl] at hC1 hC2 hC3 hC4
  refine ⟨hC1, ?_, ?_⟩
  · intro t
    rw [hC4 t]
    have hinit := (future_init indices t).2
    constructor
    · rintro (⟨h1, _⟩ | hf)
      · exact absurd rfl h1
      · obtain ⟨j, hj, rec, hrec, hrt⟩ := hinit.mp hf
        refine ⟨indices.getD j [], getD_mem_of_lt hj, rec.2, ?_⟩
        rw [← hrt]
        exact hrec
    · rintro ⟨reader, hreader, pp, hp⟩
      refine Or.inr (hinit.mpr ?_)
      obtain ⟨j, hj, hget⟩ := List.mem_iff_getElem.mp hreader
      refine ⟨j, hj, (t, pp), ?_, rfl⟩
      rw [List.getD_eq_getElem?_getD, List.getElem?_eq_getElem hj, hget]
      exact hp
  · intro t q hmem
    obtain ⟨hq, hiff⟩ := hC3 t q hmem
    refine ⟨hq, fun x => ?_⟩
    rw [hiff x]
    constructor
    · rintro (⟨h1, _⟩ | hf)
      · exact absurd rfl h1
      · obtain ⟨j, hj, rec, hrec, hrt, hrx⟩ :=
          ((future_init indices t).1 x).mp hf
        refine ⟨indices.getD j [], getD_mem_of_lt hj, rec.2, ?_, hrx⟩
        rw [← hrt]
        exact hrec
    · rintro ⟨reader, hreader, pp, hp, hx⟩
      refine Or.inr (((future_init indices t).1 x).mpr ?_)
      obtain ⟨j, hj, hget⟩ := List.mem_iff_getElem.mp hreader
      refine ⟨j, hj, (t, pp), ?_, rfl, hx⟩
      rw [List.getD_eq_getElem?_getD, List.getElem?_eq_getElem hj, hget]
      exact hp

/-! ## Evaluator lemmas -/

theorem evalQuery_env_subst (env : String → Option (List Nat)) (t : String)
    (ht : env t = none) : ∀ (ts : List QTok) (stack : List (List Nat)),
    evalQuery env ts stack
      = evalQuery (fun s => if s = t then some [] else env s) ts stack := by
  intro ts
  induction ts with
  | nil => intro stack; rfl
  | cons tok ts ih =>
    intro stack
    cases tok with
    | term s =>
      rw [evalQuery, evalQuery]
      have harg : ((if s = t then some [] else env s) : Option (List Nat)).getD []
          = (env s).getD [] := by
        by_cases hs : s = t
        · rw [if_pos hs, hs, ht]
          rfl
        · rw [if_neg hs]
      rw [harg]
      exact ih _
    | opAnd =>
      match stack with
      | [] => rfl
      | [b] => rfl
      | b :: a :: stack =>
        rw [evalQuery, evalQuery]
        exact ih _
    | opOr =>
      match stack with
      | [] => rfl
      | [b] => rfl
      | b :: a :: stack =>
        rw [evalQuery, evalQuery]
        exact ih _
    | opDiff =>
      match stack with
      | [] => rfl
      | [b] => rfl
      | b :: a :: stack =>
        rw [evalQuery, evalQuery]
        exact ih _

theorem s5_example :
    boolean_retrieve
      (fun s => if s = "alpha" then some [1, 2, 3]
        else if s = "beta" then some [2, 3, 4]
        else if s = "gamma" then some [3] else none)
      [QTok.term "alpha", QTok.term "beta", QTok.opAnd, QTok.term "gamma",
        QTok.opDiff] = some [2] := by
  rw [boolean_retrieve]
  have h1 : sort_intersect_list [2, 3, 4] [1, 2, 3] = [2, 3] := by
    simp [sort_intersect_list]
  have h2 : sort_diff_list [3] [2, 3] = [2] := by
    simp [sort_diff_list]
  simp [evalQuery, h1, h2]

theorem merge_s4_example :
    merge_index [[((5 : Int), [1, 3]), (9, [2])], [(5, [3, 7]), (7, [4])]]
      = [(5, [1, 3, 7]), (7, [4]), (9, [2])] := by
  have hu : sort_union_list [1, 3] [3, 7] = [1, 3, 7] := by
    simp [sort_union_list]
  simp [merge_index, mergeLoop, initHeapAux, pushEntry, List.orderedInsert,
    lexLe, hu]

/-! ## Remaining helper lemmas for the claims -/

theorem pairwise_lt_range1 : ∀ (n s : Nat),
    List.Pairwise (· < ·) (List.range' s n) := by
  intro n
  induction n with
  | zero => intro s; exact List.Pairwise.nil
  | succ n ih =>
    intro s
    rw [List.range'_succ, List.pairwise_cons]
    refine ⟨fun b hb => ?_, ih (s + 1)⟩
    obtain ⟨i, _, rfl⟩ := List.mem_range'.mp hb
    omega

theorem gapAux_range' : ∀ (m p : Nat),
    gapAux p (List.range' (p + 1) m) = List.replicate m 1 := by
  intro m
  induction m with
  | zero => intro p; rfl
  | succ m ih =>
    intro p
    rw [List.range'_succ, gapAux, List.replicate_succ]
    congr 1
    · omega
    · have := ih (p + 1)
      rw [show p + 1 + 1 = p + 2 by omega] at this
      exact this

theorem gapList_range' (n : Nat) :
    gapList (List.range' 1 (n + 1)) = List.replicate (n + 1) 1 := by
  rw [List.range'_succ, gapList, List.replicate_succ]
  congr 1
  exact gapAux_range' n 1

namespace Simple8bPostings

theorem s8b_encode_step' (ns : List Nat) (hne : ns ≠ []) (selector : Nat)
    (h : find_selector ns = some selector) :
    simple8b_encode ns =
      ((if selector = 0 then simple8b_encode (ns.drop 240)
        else if selector = 1 then simple8b_encode (ns.drop 120)
        else simple8b_encode (ns.drop (tableCount selector))).map
        fun bs =>
          (if selector = 0 ∨ selector = 1 then wordToBytesBE selector
           else wordToBytesBE
             (packWord selector (tableBits selector)
               (ns.take (tableCount selector)))) ++ bs) := by
  match ns with
  | [] => exact absurd rfl hne
  | n :: rest => exact s8b_encode_step n rest selector h

theorem fs_replicate_240 (tl : List Nat) :
    find_selector (List.replicate 240 1 ++ tl) = some 0 := by
  rw [find_selector_eq_zero_iff]
  constructor
  · rw [List.length_append, List.length_replicate]
    omega
  · intro g hg
    rw [List.take_left' (List.length_replicate 240 1)] at hg
    exact (List.mem_replicate.mp hg).2

theorem fs_replicate_120 :
    find_selector (List.replicate 120 1) = some 1 := by
  rw [find_selector_eq_one_iff]
  refine ⟨?_, ?_, ?_⟩
  · rintro ⟨hl, _⟩
    rw [List.length_replicate] at hl
    omega
  · rw [List.length_replicate]
  · intro g hg
    have : g ∈ List.replicate 120 1 := List.mem_of_mem_take hg
    exact (List.mem_replicate.mp this).2

theorem s8b_two_runs :
    simple8b_encode (List.replicate 240 1 ++ List.replicate 120 1)
      = some (wordToBytesBE 0 ++ wordToBytesBE 1) := by
  rw [s8b_encode_step' _ (by simp) 0 (fs_replicate_240 _), if_pos rfl,
    if_pos (Or.inl rfl)]
  rw [List.drop_left' (List.length_replicate 240 1)]
  have h0 : ¬ (1 : Nat) = 0 := by decide
  rw [s8b_encode_step' _ (by simp) 1 fs_replicate_120, if_neg h0,
    if_pos rfl, if_pos (Or.inr rfl)]
  rw [show (List.replicate 120 1).drop 120 = [] by simp]
  rw [s8b_encode_nil]
  rfl

theorem s8b_run240 :
    simple8b_encode (List.replicate 240 1) = some (wordToBytesBE 0) := by
  have h : List.replicate 240 1 ++ ([] : List Nat) = List.replicate 240 1 := by
    simp
  rw [s8b_encode_step' _ (by simp) 0 (by rw [← h]; exact fs_replicate_240 []),
    if_pos rfl, if_pos (Or.inl rfl)]
  rw [show (List.replicate 240 1).drop 240 = [] by simp]
  rw [s8b_encode_nil]
  simp

theorem s8b_range240_encode :
    encode (List.range' 1 240) = some (wordToBytesBE 0) := by
  rw [encode.eq_def]
  rw [show List.range' 1 240 = 1 :: List.range' 2 239 from List.range'_succ 1 239 1]
  rw [show ((1 : Nat) :: List.range' 2 239) = List.range' 1 240 from
    (List.range'_succ 1 239 1).symm]
  rw [show gapList (List.range' 1 240) = List.replicate 240 1 from
    gapList_range' 239]
  exact s8b_run240

theorem s8b_decode_word0 :
    decode (wordToBytesBE 0) = some (List.range' 1 240) := by
  have hb : bytesToWordBE (wordToBytesBE 0) = 0 :=
    bytesToWordBE_wordToBytesBE 0 (by norm_num)
  have hd : simple8b_decode (wordToBytesBE 0) = List.replicate 240 1 := by
    have hstep := s8b_decode_step (wordToBytesBE 0) [] (wordToBytesBE_length 0)
    rw [List.append_nil] at hstep
    rw [hstep, hb, if_pos (by decide : (0 : Nat) &&& 0xF = 0), s8b_decode_nil,
      List.append_nil]
  rw [decode.eq_def, hd]
  rw [show List.replicate 240 1 = 1 :: List.replicate 239 1 from rfl]
  show some (prefixSums 1 (List.replicate 239 1)) = some (List.range' 1 240)
  congr 1

end Simple8bPostings

namespace VBEPostings

theorem vbDecodeAux_length : ∀ (bs : List Nat) (a : Nat),
    (vbDecodeAux bs a).length = (bs.filter fun b => 128 ≤ b).length := by
  intro bs
  induction bs with
  | nil => intro a; rfl
  | cons b bs ih =>
    intro a
    rw [vbDecodeAux]
    by_cases hb : b < 128
    · have hnb : ¬ (decide (128 ≤ b) = true) := by
        simp only [decide_eq_true_eq]; omega
      rw [if_pos hb, List.filter_cons, if_neg hnb]
      exact ih _
    · have hpb : decide (128 ≤ b) = true := by
        simp only [decide_eq_true_eq]; omega
      rw [if_neg hb, List.filter_cons, if_pos hpb]
      rw [List.length_cons, List.length_cons, ih 0]

theorem vbDecodeAux_append_low (tl : List Nat) (hlow : ∀ b ∈ tl, b < 128) :
    ∀ (bs : List Nat) (a : Nat),
    vbDecodeAux (bs ++ tl) a = vbDecodeAux bs a := by
  intro bs
  induction bs with
  | nil =>
    intro a
    rw [List.nil_append]
    rw [show vbDecodeAux ([] : List Nat) a = [] from rfl]
    exact vbDecodeAux_low tl hlow a
  | cons b bs ih =>
    intro a
    rw [List.cons_append, vbDecodeAux, vbDecodeAux]
    by_cases hb : b < 128
    · rw [if_pos hb, if_pos hb, ih]
    · rw [if_neg hb, if_neg hb, ih]

end VBEPostings

/-! ## Claims -/

/-- Claim C1: in boolean_retrieve's evaluator, a DIFF token pops B first and
A second and pushes A DIFF B — the first-popped operand is the subtrahend
(right-hand side), the second-popped the minuend.  Stated as: (1) the DIFF
step of the evaluator passes the first-popped list b as the first argument
of sort_diff_list; (2) on strictly ascending inputs, sort_diff_list b a is
the strictly ascending list of exactly the elements of a (the second pop)
not in b (the first pop); (3) with alpha having postings [1,2,3], beta
[2,3,4], gamma [3], the postfix query alpha beta AND gamma DIFF evaluates to
[2]. -/
theorem claim_C1 :
    (∀ (env : String → Option (List Nat)) (ts : List QTok)
       (a b : List Nat) (stack : List (List Nat)),
       evalQuery env (QTok.opDiff :: ts) (b :: a :: stack)
         = evalQuery env ts (sort_diff_list b a :: stack)) ∧
    (∀ a b : List Nat, List.Pairwise (· < ·) a → List.Pairwise (· < ·) b →
       List.Pairwise (· < ·) (sort_diff_list b a) ∧
       ∀ x, x ∈ sort_diff_list b a ↔ x ∈ a ∧ x ∉ b) ∧
    boolean_retrieve
      (fun s => if s = "alpha" then some [1, 2, 3]
        else if s = "beta" then some [2, 3, 4]
        else if s = "gamma" then some [3] else none)
      [QTok.term "alpha", QTok.term "beta", QTok.opAnd, QTok.term "gamma",
        QTok.opDiff] = some [2] := by
  refine ⟨fun env ts a b stack => rfl, fun a b ha hb => ?_, s5_example⟩
  exact ⟨pairwise_sort_diff b a hb ha, fun x => mem_sort_diff b a x hb ha⟩

theorem claim_C1_witness :
    List.Pairwise (· < ·) ([2, 3] : List Nat) ∧
    List.Pairwise (· < ·) ([3] : List Nat) ∧
    (List.Pairwise (· < ·) (sort_diff_list [3] [2, 3]) ∧
     ∀ x, x ∈ sort_diff_list [3] [2, 3] ↔ x ∈ [2, 3] ∧ x ∉ [3]) :=
  ⟨by decide, by decide, claim_C1.2.1 [2, 3] [3] (by decide) (by decide)⟩

/-- Claim C2: merge_index, fed readers whose records carry strictly
ascending term ids and non-empty strictly ascending postings lists, emits
records with strictly ascending term ids, emits some record for a term iff
some reader holds that term, and the postings list emitted for a term is
strictly ascending and holds exactly the doc ids appearing for that term in
some reader (the deduplicated sorted union); and concretely merging
{5:[1,3], 9:[2]} with {5:[3,7], 7:[4]} yields
{5:[1,3,7], 7:[4], 9:[2]}. -/
theorem claim_C2 :
    (∀ indices : List (List IRec),
      (∀ reader ∈ indices, List.Pairwise (· < ·) (reader.map Prod.fst)) →
      (∀ reader ∈ indices, ∀ rec ∈ reader,
        0 ≤ rec.1 ∧ rec.2 ≠ [] ∧ List.Pairwise (· < ·) rec.2) →
      List.Pairwise (· < ·) ((merge_index indices).map Prod.fst) ∧
      (∀ t, (∃ q, (t, q) ∈ merge_index indices) ↔
        ∃ reader ∈ indices, ∃ p, (t, p) ∈ reader) ∧
      (∀ t q, (t, q) ∈ merge_index indices →
        List.Pairwise (· < ·) q ∧
        ∀ x, x ∈ q ↔ ∃ reader ∈ indices, ∃ p, (t, p) ∈ reader ∧ x ∈ p)) ∧
    merge_index [[((5 : Int), [1, 3]), (9, [2])], [(5, [3, 7]), (7, [4])]]
      = [(5, [1, 3, 7]), (7, [4]), (9, [2])] :=
  ⟨fun indices h1 h2 => merge_index_spec indices h1 h2, merge_s4_example⟩

theorem claim_C2_witness :
    (∀ reader ∈ ([[((0 : Int), [1])]] : List (List IRec)),
      List.Pairwise (· < ·) (reader.map Prod.fst)) ∧
    (∀ reader ∈ ([[((0 : Int), [1])]] : List (List IRec)), ∀ rec ∈ reader,
      0 ≤ rec.1 ∧ rec.2 ≠ [] ∧ List.Pairwise (· < ·) rec.2) ∧
    (List.Pairwise (· < ·)
       ((merge_index [[((0 : Int), [1])]]).map Prod.fst) ∧
     (∀ t, (∃ q, (t, q) ∈ merge_index [[((0 : Int), [1])]]) ↔
       ∃ reader ∈ ([[((0 : Int), [1])]] : List (List IRec)),
         ∃ p, (t, p) ∈ reader) ∧
     (∀ t q, (t, q) ∈ merge_index [[((0 : Int), [1])]] →
       List.Pairwise (· < ·) q ∧
       ∀ x, x ∈ q ↔ ∃ reader ∈ ([[((0 : Int), [1])]] : List (List IRec)),
         ∃ p, (t, p) ∈ reader ∧ x ∈ p)) :=
  ⟨by decide, by decide, claim_C2.1 [[((0 : Int), [1])]] (by decide) (by decide)⟩

/-- Claim C3: each codec round-trips — decode after encode is the identity
on strictly ascending non-empty lists within the codec's legal range.  For
StandardPostings the embedding is parameterized by the platform item width w
of array type code L, and the legal range is values below 2^(8w); for
VBEPostings every Nat is legal; for Simple8bPostings the gaps must fit in 60
bits. -/
theorem claim_C3 :
    (∀ w : Nat, 1 ≤ w → ∀ xs : List Nat, xs ≠ [] →
      List.Pairwise (· < ·) xs → (∀ x ∈ xs, x < 2 ^ (8 * w)) →
      (StandardPostings.encode w xs).bind (StandardPostings.decode w)
        = some xs) ∧
    (∀ xs : List Nat, xs ≠ [] → List.Pairwise (· < ·) xs →
      (VBEPostings.encode xs).bind VBEPostings.decode = some xs) ∧
    (∀ xs : List Nat, xs ≠ [] → List.Pairwise (· < ·) xs →
      (∀ g ∈ gapList xs, g < 2 ^ 60) →
      (Simple8bPostings.encode xs).bind Simple8bPostings.decode = some xs) :=
  ⟨fun w hw xs _ _ hx => StandardPostings.std_round_trip w hw xs hx,
   VBEPostings.vbe_round_trip,
   Simple8bPostings.s8b_round_trip⟩

theorem claim_C3_witness :
    ((1 : Nat) ≤ 4) ∧ (([34, 67, 89, 454] : List Nat) ≠ []) ∧
    List.Pairwise (· < ·) ([34, 67, 89, 454] : List Nat) ∧
    (∀ x ∈ ([34, 67, 89, 454] : List Nat), x < 2 ^ (8 * 4)) ∧
    (∀ g ∈ gapList [34, 67, 89, 454], g < 2 ^ 60) ∧
    ((StandardPostings.encode 4 [34, 67, 89, 454]).bind
      (StandardPostings.decode 4) = some [34, 67, 89, 454]) ∧
    ((VBEPostings.encode [34, 67, 89, 454]).bind VBEPostings.decode
      = some [34, 67, 89, 454]) ∧
    ((Simple8bPostings.encode [34, 67, 89, 454]).bind Simple8bPostings.decode
      = some [34, 67, 89, 454]) :=
  ⟨by decide, by decide, by decide, by decide, by decide,
   claim_C3.1 4 (by decide) [34, 67, 89, 454] (by decide) (by decide)
     (by decide),
   claim_C3.2.1 [34, 67, 89, 454] (by decide) (by decide),
   claim_C3.2.2 [34, 67, 89, 454] (by decide) (by decide) (by decide)⟩

/-- Claim C5: a query operand term that is absent from the term map (env
returns none) raises nothing: the evaluator pushes the empty postings list
for it, and the whole retrieval returns exactly what it returns with the
empty list substituted for that term in the environment. -/
theorem claim_C5 :
    ∀ (env : String → Option (List Nat)) (t : String), env t = none →
    (∀ (ts : List QTok) (stack : List (List Nat)),
       evalQuery env (QTok.term t :: ts) stack
         = evalQuery env ts ([] :: stack)) ∧
    ∀ pf_query : List QTok,
      boolean_retrieve env pf_query
        = boolean_retrieve (fun s => if s = t then some [] else env s)
            pf_query := by
  intro env t ht
  constructor
  · intro ts stack
    rw [evalQuery, ht]
    rfl
  · intro pf_query
    rw [boolean_retrieve, boolean_retrieve,
      evalQuery_env_subst env t ht pf_query []]

theorem claim_C5_witness :
    ((fun _ : String => (none : Option (List Nat))) "missing" = none) ∧
    ((∀ (ts : List QTok) (stack : List (List Nat)),
       evalQuery (fun _ => none) (QTok.term "missing" :: ts) stack
         = evalQuery (fun _ => none) ts ([] :: stack)) ∧
     ∀ pf_query : List QTok,
       boolean_retrieve (fun _ => none) pf_query
         = boolean_retrieve
             (fun s => if s = "missing" then some [] else none) pf_query) :=
  ⟨rfl, claim_C5 (fun _ => none) "missing" rfl⟩

/-- Claim C6: find_selector is greedy smallest-first — it returns 0 iff the
next at-least-240 gaps are all 1, returns 1 iff that fails and the next
at-least-120 gaps are all 1, and when it returns a selector s ≥ 2 the s-th
table row's window exists and fits its bit width while no earlier row with
index ≥ 2 does; consequently simple8b_encode on 240 ones followed by 120
ones is exactly the two words with selectors 0 and 1, and encode of
[1,2,...,240] is the single word with selector 0, which decodes back to
[1,2,...,240]. -/
theorem claim_C6 :
    (∀ ns : List Nat, Simple8bPostings.find_selector ns = some 0 ↔
       240 ≤ ns.length ∧ ∀ g ∈ ns.take 240, g = 1) ∧
    (∀ ns : List Nat, Simple8bPostings.find_selector ns = some 1 ↔
       ¬(240 ≤ ns.length ∧ ∀ g ∈ ns.take 240, g = 1) ∧
       120 ≤ ns.length ∧ ∀ g ∈ ns.take 120, g = 1) ∧
    (∀ (ns : List Nat) (s : Nat),
       Simple8bPostings.find_selector ns = some s → 2 ≤ s →
       s < 16 ∧
       (Simple8bPostings.tableCount s ≤ ns.length ∧
         Simple8bPostings.maxList (ns.take (Simple8bPostings.tableCount s))
           < 1 <<< Simple8bPostings.tableBits s) ∧
       ∀ t, 2 ≤ t → t < s →
         ¬(Simple8bPostings.tableCount t ≤ ns.length ∧
           Simple8bPostings.maxList (ns.take (Simple8bPostings.tableCount t))
             < 1 <<< Simple8bPostings.tableBits t)) ∧
    Simple8bPostings.simple8b_encode
        (List.replicate 240 1 ++ List.replicate 120 1)
      = some (Simple8bPostings.wordToBytesBE 0
          ++ Simple8bPostings.wordToBytesBE 1) ∧
    Simple8bPostings.encode (List.range' 1 240)
      = some (Simple8bPostings.wordToBytesBE 0) ∧
    Simple8bPostings.decode (Simple8bPostings.wordToBytesBE 0)
      = some (List.range' 1 240) :=
  ⟨Simple8bPostings.find_selector_eq_zero_iff,
   Simple8bPostings.find_selector_eq_one_iff,
   Simple8bPostings.find_selector_ge_two,
   Simple8bPostings.s8b_two_runs,
   Simple8bPostings.s8b_range240_encode,
   Simple8bPostings.s8b_decode_word0⟩

theorem claim_C6_witness :
    (Simple8bPostings.find_selector [5] = some 15) ∧ ((2 : Nat) ≤ 15) ∧
    ((15 : Nat) < 16 ∧
     (Simple8bPostings.tableCount 15 ≤ ([5] : List Nat).length ∧
       Simple8bPostings.maxList
           (([5] : List Nat).take (Simple8bPostings.tableCount 15))
         < 1 <<< Simple8bPostings.tableBits 15) ∧
     ∀ t, 2 ≤ t → t < 15 →
       ¬(Simple8bPostings.tableCount t ≤ ([5] : List Nat).length ∧
         Simple8bPostings.maxList
             (([5] : List Nat).take (Simple8bPostings.tableCount t))
           < 1 <<< Simple8bPostings.tableBits t)) :=
  ⟨by decide, by decide, claim_C6.2.2.1 [5] 15 (by decide) (by decide)⟩

/-- Claim C8: Simple8bPostings.encode on a non-empty postings list fails
(the ValueError from find_selector, embedded as none) exactly when some gap
of the gap-transformed input needs more than 60 bits, i.e. is at least
2^60; on inputs all of whose gaps fit in 60 bits it does not fail. -/
theorem claim_C8 :
    ∀ xs : List Nat, xs ≠ [] →
      (Simple8bPostings.encode xs = none ↔
        ∃ g ∈ gapList xs, 2 ^ 60 ≤ g) :=
  Simple8bPostings.s8b_encode_none_iff

theorem claim_C8_witness :
    (([2 ^ 60] : List Nat) ≠ []) ∧
    (Simple8bPostings.encode [2 ^ 60] = none ↔
      ∃ g ∈ gapList [2 ^ 60], 2 ^ 60 ≤ g) :=
  ⟨by decide, claim_C8 [2 ^ 60] (by decide)⟩

/-- Claim C9: vb_encode_number on an integer n in [0, 127] produces the
single byte n ||| 0x80 — exactly one byte, its high bit (bit 7) set, its
value n + 128. -/
theorem claim_C9 :
    ∀ n : Nat, n ≤ 127 →
      VBEPostings.vb_encode_number n = [n ||| 0x80] ∧
      (VBEPostings.vb_encode_number n).length = 1 ∧
      Nat.testBit (n ||| 0x80) 7 = true ∧
      n ||| 0x80 = n + 128 := by
  intro n hn
  have h1 : n &&& 0x7F = n := by
    rw [and_127_eq_mod]
    omega
  have henc : VBEPostings.vb_encode_number n = [n ||| 0x80] := by
    rw [VBEPostings.vb_encode_number, VBEPostings.vbLoop,
      if_pos (by omega : n < 128)]
    rw [show VBEPostings.modifyLast (fun b => b ||| 0x80) [n &&& 0x7F]
        = [(n &&& 0x7F) ||| 0x80] from rfl, h1]
  have hadd : n ||| 0x80 = n + 128 := lor_128_eq_add (by omega)
  refine ⟨henc, by rw [henc]; rfl, ?_, hadd⟩
  rw [hadd, Nat.testBit_to_div_mod, decide_eq_true_eq,
    show (2 : Nat) ^ 7 = 128 by norm_num]
  omega

theorem claim_C9_witness :
    ((5 : Nat) ≤ 127) ∧
    (VBEPostings.vb_encode_number 5 = [5 ||| 0x80] ∧
     (VBEPostings.vb_encode_number 5).length = 1 ∧
     Nat.testBit (5 ||| 0x80) 7 = true ∧
     (5 : Nat) ||| 0x80 = 5 + 128) :=
  ⟨by decide, claim_C9 5 (by decide)⟩

/-- Claim C10: vb_decode is total — it is a plain function on arbitrary
byte lists — and appends one integer per byte with the high bit set, so its
output length is the number of high-bit bytes in the input, and a trailing
run of bytes all below 128 (a group missing its terminator) is silently
discarded: appending it to any stream leaves vb_decode's result
unchanged. -/
theorem claim_C10 :
    (∀ bs : List Nat,
       (VBEPostings.vb_decode bs).length
         = (bs.filter fun b => 128 ≤ b).length) ∧
    ∀ bs tl : List Nat, (∀ b ∈ tl, b < 128) →
      VBEPostings.vb_decode (bs ++ tl) = VBEPostings.vb_decode bs :=
  ⟨fun bs => VBEPostings.vbDecodeAux_length bs 0,
   fun bs tl h => VBEPostings.vbDecodeAux_append_low tl h bs 0⟩

theorem claim_C10_witness :
    (∀ b ∈ ([5, 6] : List Nat), b < 128) ∧
    VBEPostings.vb_decode ([130] ++ [5, 6]) = VBEPostings.vb_decode [130] :=
  ⟨by decide, claim_C10.2 [130] [5, 6] (by decide)⟩

end BSBI
